import Mathlib

/-!
# R_x: a single-variable polynomial engine (`src/R_x/Polynomial.h`)

Shallow embedding of `struct Term` and `class Polynomial`.

Modelling conventions.

* A `Polynomial` object is its only field, the vector `terms`, as a `List (Term K)`.
* The coefficient type `K` is a parameter.  Results stated "over exact coefficient
  arithmetic" are proved for `K = ℚ`.  Where the code meets the quiet-NaN sentinel or
  divides by 0, it is evaluated over `Coef`: exact rational values together with the two
  infinities and NaN, with the arithmetic of IEEE 754 floats on them (`x / 0` is an
  infinity for `x ≠ 0`, `0 / 0`, `inf - inf` and `inf * 0` are NaN, NaN absorbs).
* `unsigned int` exponents are natural numbers.  The increment `e += 1` of
  `Term::operator<<` is taken modulo `uintRange` = 2^32, as the machine takes it; the
  decrement of `Term::operator>>` is guarded by the test `e == 0` in the source.  The
  difference `exp_max` of long division is taken in the integers: long division calls
  `fill`, which materialises one term per exponent, so its runs with exponents near the
  end of the range do not fit in memory.  The sum of exponents in `Term::operator*` is
  the sum of natural numbers: the results about products describe runs in which it stays
  in the range.
* A subscript past the end of a vector is undefined behaviour in C++; the model stops
  with `Fault.outOfRange` there.  In long division the model stops with `Fault.divByZero`
  when the leading coefficient of the divisor is 0: over `ℚ` that quotient has no value
  (the float code goes on with infinities and NaN, C18).  Every other division
  (`c /= e` in `Term::operator<<`, `1 / other.terms[0].coef` in `operator&`) is the
  division of the coefficient type, as in the source: the results over `ℚ` that pass
  through one assume its divisor nonzero, and the code at a zero divisor is evaluated
  over `Coef` (C5, C10, C11).  Loops whose trip count is not fixed by a counter carry an
  iteration budget and stop with `Fault.outOfFuel` when it is used up.
* `std::sort` is not stable.  `sortDesc` is one particular sort by descending exponent;
  the merge pass that follows adds up every run of equal exponents, so the result of
  `combine` does not depend on the order chosen inside a run
  (`combine_sort_independent`).
-/

namespace Rx

/-- The struct `Term`: a coefficient and an exponent. -/
structure Term (K : Type) where
  coef : K
  exp : Nat
deriving DecidableEq

/-- Ways in which a run of the model stops without a value. -/
inductive Fault where
  | outOfRange
  | divByZero
  | outOfFuel
deriving DecidableEq

deriving instance DecidableEq for Except

/-- A coefficient type that has the quiet-NaN sentinel. -/
class HasNaN (K : Type) where
  nan : K

/-- Float coefficients with exact finite values: a rational number, one of the two
infinities, or NaN.  Zero carries no sign. -/
inductive Coef where
  | num (q : ℚ)
  | pinf
  | ninf
  | nan
deriving DecidableEq

instance : Zero Coef := ⟨Coef.num 0⟩

instance : One Coef := ⟨Coef.num 1⟩

instance : NatCast Coef := ⟨fun n => Coef.num n⟩

instance : HasNaN Coef := ⟨Coef.nan⟩

/-- The coefficient is a finite number. -/
def Coef.isNum : Coef → Bool
  | Coef.num _ => true
  | _ => false

/-- The negation of a float: the infinities swap, NaN stays. -/
def Coef.neg : Coef → Coef
  | Coef.num a => Coef.num (-a)
  | Coef.pinf => Coef.ninf
  | Coef.ninf => Coef.pinf
  | Coef.nan => Coef.nan

/-- An infinity with the sign of a nonzero rational. -/
def Coef.infOf (q : ℚ) : Coef := if 0 < q then Coef.pinf else Coef.ninf

/-- The sum of two floats: NaN absorbs, opposite infinities give NaN. -/
def Coef.add : Coef → Coef → Coef
  | Coef.num a, Coef.num b => Coef.num (a + b)
  | Coef.nan, _ => Coef.nan
  | _, Coef.nan => Coef.nan
  | Coef.pinf, Coef.ninf => Coef.nan
  | Coef.ninf, Coef.pinf => Coef.nan
  | Coef.pinf, _ => Coef.pinf
  | Coef.ninf, _ => Coef.ninf
  | Coef.num _, Coef.pinf => Coef.pinf
  | Coef.num _, Coef.ninf => Coef.ninf

/-- The product of two floats: NaN absorbs, an infinity times 0 is NaN. -/
def Coef.mul : Coef → Coef → Coef
  | Coef.num a, Coef.num b => Coef.num (a * b)
  | Coef.nan, _ => Coef.nan
  | _, Coef.nan => Coef.nan
  | Coef.pinf, Coef.pinf => Coef.pinf
  | Coef.ninf, Coef.ninf => Coef.pinf
  | Coef.pinf, Coef.ninf => Coef.ninf
  | Coef.ninf, Coef.pinf => Coef.ninf
  | Coef.pinf, Coef.num b => if b = 0 then Coef.nan else Coef.infOf b
  | Coef.ninf, Coef.num b => if b = 0 then Coef.nan else Coef.infOf (-b)
  | Coef.num a, Coef.pinf => if a = 0 then Coef.nan else Coef.infOf a
  | Coef.num a, Coef.ninf => if a = 0 then Coef.nan else Coef.infOf (-a)

/-- The quotient of two floats: NaN absorbs; a nonzero number over 0 is an infinity,
`0 / 0` and an infinity over an infinity are NaN, a number over an infinity is 0. -/
def Coef.div : Coef → Coef → Coef
  | Coef.num a, Coef.num b =>
    if b = 0 then (if a = 0 then Coef.nan else Coef.infOf a) else Coef.num (a / b)
  | Coef.nan, _ => Coef.nan
  | _, Coef.nan => Coef.nan
  | Coef.num _, Coef.pinf => Coef.num 0
  | Coef.num _, Coef.ninf => Coef.num 0
  | Coef.pinf, Coef.num b => if b < 0 then Coef.ninf else Coef.pinf
  | Coef.ninf, Coef.num b => if b < 0 then Coef.pinf else Coef.ninf
  | Coef.pinf, Coef.pinf => Coef.nan
  | Coef.pinf, Coef.ninf => Coef.nan
  | Coef.ninf, Coef.pinf => Coef.nan
  | Coef.ninf, Coef.ninf => Coef.nan

instance : Neg Coef := ⟨Coef.neg⟩

instance : Add Coef := ⟨Coef.add⟩

instance : Mul Coef := ⟨Coef.mul⟩

instance : Div Coef := ⟨Coef.div⟩

/-- The difference of two floats: the sum with the negated second operand. -/
def Coef.sub (a b : Coef) : Coef := Coef.add a (Coef.neg b)

instance : Sub Coef := ⟨Coef.sub⟩

/-- The power `std::pow(value, exp)` with an unsigned exponent: an exponent 0 gives 1 for
every base, NaN included; a positive exponent keeps NaN and `+inf`, and sends `-inf` to
`-inf` when odd and to `+inf` when even. -/
def Coef.pow : Coef → Nat → Coef
  | _, 0 => Coef.num 1
  | Coef.num a, n + 1 => Coef.num (a ^ (n + 1))
  | Coef.pinf, _ + 1 => Coef.pinf
  | Coef.ninf, n + 1 => if n % 2 = 0 then Coef.ninf else Coef.pinf
  | Coef.nan, _ + 1 => Coef.nan

instance : Pow Coef Nat := ⟨Coef.pow⟩

/-- The number of values of `unsigned int`: exponent arithmetic that can leave the range
wraps around modulo this number. -/
def uintRange : Nat := 4294967296

section Defs

variable {K : Type}

/-- Source: `Term::operator-()`. -/
def Term.neg [Neg K] (t : Term K) : Term K := ⟨-t.coef, t.exp⟩

/-- Source: `Term::operator*(const Term&)`. -/
def Term.mul [Mul K] (t u : Term K) : Term K := ⟨t.coef * u.coef, t.exp + u.exp⟩

/-- The loop of `Term::operator<<`: `e += 1; c /= e`, `n` times; the increment of the
`unsigned` exponent wraps around. -/
def Term.shlLoop [Div K] [NatCast K] : Nat → K → Nat → Term K
  | 0, c, e => ⟨c, e⟩
  | n + 1, c, e =>
    Term.shlLoop n (c / (((e + 1) % uintRange : Nat) : K)) ((e + 1) % uintRange)

/-- Source: `Term::operator<<`: the zero constant term is first replaced by NaN. -/
def Term.shl [Zero K] [DecidableEq K] [Div K] [NatCast K] [HasNaN K]
    (t : Term K) (n : Nat) : Term K :=
  Term.shlLoop n (if t.coef = 0 ∧ t.exp = 0 then HasNaN.nan else t.coef) t.exp

/-- The loop of `Term::operator>>`: at exponent 0 the coefficient becomes 0 and the
loop is left; otherwise `c *= e; e -= 1`. -/
def Term.shrLoop [Zero K] [Mul K] [NatCast K] : Nat → K → Nat → Term K
  | 0, c, e => ⟨c, e⟩
  | n + 1, c, e => if e = 0 then ⟨0, e⟩ else Term.shrLoop n (c * ((e : Nat) : K)) (e - 1)

/-- Source: `Term::operator>>`. -/
def Term.shr [Zero K] [Mul K] [NatCast K] (t : Term K) (n : Nat) : Term K :=
  Term.shrLoop n t.coef t.exp

/-- The `std::sort` call of `combine`: descending exponents. -/
def sortDesc (ts : List (Term K)) : List (Term K) :=
  ts.insertionSort (fun a b => b.exp ≤ a.exp)

/-- The merge loop of `combine`, with `acc` the term at index `i - 1` and the argument
list the terms from index `i` on: a term with the exponent of `acc` is added into `acc`
and erased, any other term becomes the new `acc`. -/
def mergeFrom [Add K] (acc : Term K) : List (Term K) → List (Term K)
  | [] => [acc]
  | u :: rest =>
    if u.exp ≠ acc.exp then acc :: mergeFrom u rest
    else mergeFrom ⟨acc.coef + u.coef, acc.exp⟩ rest

/-- Source: `Polynomial::combine`. -/
def combine [Add K] (ts : List (Term K)) : List (Term K) :=
  match sortDesc ts with
  | [] => []
  | t :: rest => mergeFrom t rest

/-- The loop of `zero_remove` on a non-empty vector: every zero-coefficient term that
is not at the last index is erased. -/
def zeroLoop [Zero K] [DecidableEq K] : List (Term K) → List (Term K)
  | [] => []
  | [t] => [t]
  | t :: u :: rest =>
    if t.coef = 0 then zeroLoop (u :: rest) else t :: zeroLoop (u :: rest)

/-- Source: `Polynomial::zero_remove`.  On an empty vector the bound `terms.size() - 1` wraps
around and `terms[0]` is read. -/
def zero_remove [Zero K] [DecidableEq K] [Add K] (ts : List (Term K)) :
    Except Fault (List (Term K)) :=
  match combine ts with
  | [] => Except.error Fault.outOfRange
  | c :: cs => Except.ok (zeroLoop (c :: cs))

/-- Source: `Polynomial(std::vector<Term>)`. -/
def ofTerms [Add K] (ts : List (Term K)) : List (Term K) := combine ts

/-- Source: `Polynomial(Term)`. -/
def ofTerm (t : Term K) : List (Term K) := [t]

/-- Source: `Polynomial()`: the default argument is the one-element vector holding `Term()`. -/
def zeroPoly [Zero K] [Add K] : List (Term K) := ofTerms [⟨0, 0⟩]

/-- Source: `Polynomial::addTerm`. -/
def addTerm [Add K] (ts : List (Term K)) (t : Term K) : List (Term K) :=
  combine (ts ++ [t])

/-- The loop of `fill`; the bound `terms.size()` is read again at every test.  The first
argument is the iteration budget. -/
def fillLoop [Zero K] [Add K] : Nat → Nat → List (Term K) → Except Fault (List (Term K))
  | 0, _, _ => Except.error Fault.outOfFuel
  | n + 1, i, ts =>
    if i < ts.length then fillLoop n (i + 1) (addTerm ts ⟨0, i⟩) else Except.ok ts

/-- The largest exponent of a term list (0 for the empty list). -/
def maxExp (ts : List (Term K)) : Nat :=
  ts.foldr (fun t m => max t.exp m) 0

/-- Source: `Polynomial::fill`, with budget `maxExp ts + 2` (see `fill_ok`: it is never used up). -/
def fill [Zero K] [Add K] (ts : List (Term K)) : Except Fault (List (Term K)) :=
  fillLoop (maxExp ts + 2) 0 ts

/-- Unary `Polynomial::operator-`. -/
def neg [Zero K] [Add K] [Neg K] (a : List (Term K)) : List (Term K) :=
  a.foldl (fun r t => addTerm r t.neg) zeroPoly

/-- Source: `Polynomial::operator+(const Polynomial&)`. -/
def add [Zero K] [Add K] (a b : List (Term K)) : List (Term K) :=
  combine (b.foldl addTerm (a.foldl addTerm zeroPoly))

/-- Source: `Polynomial::operator-(const Polynomial&)`. -/
def sub [Zero K] [Add K] [Neg K] (a b : List (Term K)) : List (Term K) :=
  combine (b.foldl (fun r t => addTerm r ⟨-t.coef, t.exp⟩) (a.foldl addTerm zeroPoly))

/-- Source: `Polynomial::operator*(const Polynomial&)`. -/
def mul [Zero K] [Add K] [Mul K] (a b : List (Term K)) : List (Term K) :=
  combine (a.foldl (fun r t => b.foldl (fun r u => addTerm r (t.mul u)) r) zeroPoly)

/-- Source: `Polynomial::operator+(const Term&)`. -/
def addT [Add K] (a : List (Term K)) (t : Term K) : List (Term K) :=
  addTerm (ofTerms a) t

/-- Source: `Polynomial::operator-(const Term&)`. -/
def subT [Zero K] [Add K] [Neg K] (_a : List (Term K)) (t : Term K) : List (Term K) :=
  addTerm zeroPoly ⟨-t.coef, t.exp⟩

/-- Source: `Polynomial::operator*(const Term&)`. -/
def mulT [Zero K] [Add K] [Mul K] (a : List (Term K)) (t : Term K) : List (Term K) :=
  a.foldl (fun r u => addTerm r (u.mul t)) zeroPoly

/-- The subscript `terms[i]`. -/
def nth (ts : List (Term K)) (i : Nat) : Except Fault (Term K) :=
  match ts[i]? with
  | some t => Except.ok t
  | none => Except.error Fault.outOfRange

/-- The inner loop of long division: `copy.terms[i + shift].coef -= c_other.terms[i].coef * val`
for every index `i` of `c_other`; the list argument is `c_other` from index `i` on and `k`
is `i + shift`. -/
def elimRow [Sub K] [Mul K] (val : K) :
    List (Term K) → Nat → List (Term K) → Except Fault (List (Term K))
  | [], _, copy => Except.ok copy
  | o :: os, k, copy =>
    match copy[k]? with
    | none => Except.error Fault.outOfRange
    | some t => elimRow val os (k + 1) (copy.set k ⟨t.coef - o.coef * val, t.exp⟩)

/-- One pass of the outer loop of long division without its `result.addTerm` line: the
quotient coefficient `val` and the updated `copy`. -/
def elimStep [Zero K] [DecidableEq K] [Sub K] [Mul K] [Div K]
    (c_other copy : List (Term K)) (shift : Nat) : Except Fault (K × List (Term K)) := do
  let t ← nth copy shift
  let o ← nth c_other 0
  if o.coef = 0 then Except.error Fault.divByZero
  else
    let val := t.coef / o.coef
    let copy' ← elimRow val c_other shift copy
    Except.ok (val, copy')

/-- The outer loop of `operator/`, `n` passes starting at `shift`. -/
def divLoop [Zero K] [DecidableEq K] [Add K] [Sub K] [Mul K] [Div K]
    (c_other : List (Term K)) (exp_max : Nat) :
    Nat → Nat → List (Term K) → List (Term K) → Except Fault (List (Term K))
  | 0, _, _, result => Except.ok result
  | n + 1, shift, copy, result =>
    match elimStep c_other copy shift with
    | Except.error f => Except.error f
    | Except.ok (val, copy') =>
      divLoop c_other exp_max n (shift + 1) copy' (addTerm result ⟨val, exp_max - shift⟩)

/-- The outer loop of `operator%`, `n` passes starting at `shift`. -/
def modLoop [Zero K] [DecidableEq K] [Sub K] [Mul K] [Div K]
    (c_other : List (Term K)) :
    Nat → Nat → List (Term K) → Except Fault (List (Term K))
  | 0, _, copy => Except.ok copy
  | n + 1, shift, copy =>
    match elimStep c_other copy shift with
    | Except.error f => Except.error f
    | Except.ok (_, copy') => modLoop c_other n (shift + 1) copy'

/-- Source: `Polynomial::operator/`. -/
def div [Zero K] [DecidableEq K] [Add K] [Sub K] [Mul K] [Div K]
    (a b : List (Term K)) : Except Fault (List (Term K)) := do
  let copy ← zero_remove (ofTerms a)
  let c_other ← zero_remove b
  let t ← nth copy 0
  let o ← nth c_other 0
  let exp_max : Int := (t.exp : Int) - (o.exp : Int)
  let copy ← fill copy
  let c_other ← fill c_other
  if exp_max < 0 then Except.ok zeroPoly
  else divLoop c_other exp_max.toNat (exp_max.toNat + 1) 0 copy zeroPoly

/-- Source: `Polynomial::operator%`. -/
def mod [Zero K] [DecidableEq K] [Add K] [Sub K] [Mul K] [Div K]
    (a b : List (Term K)) : Except Fault (List (Term K)) := do
  let copy ← zero_remove (ofTerms a)
  let c_other ← zero_remove b
  let t ← nth copy 0
  let o ← nth c_other 0
  let exp_max : Int := (t.exp : Int) - (o.exp : Int)
  let copy ← fill copy
  let c_other ← fill c_other
  if exp_max < 0 then Except.ok (ofTerms a)
  else modLoop c_other (exp_max.toNat + 1) 0 copy

/-- The `while` loop of `operator&`; the first argument is the iteration budget. -/
def gcdLoop [Zero K] [DecidableEq K] [Add K] [Sub K] [Mul K] [Div K] :
    Nat → List (Term K) → List (Term K) → Except Fault (List (Term K) × List (Term K))
  | 0, _, _ => Except.error Fault.outOfFuel
  | n + 1, copy, c_other => do
    let o ← nth c_other 0
    if o.exp ≠ 0 then
      let r ← mod copy c_other
      let copy' ← zero_remove c_other
      let c_other' ← zero_remove r
      gcdLoop n copy' c_other'
    else Except.ok (copy, c_other)

/-- Source: `Polynomial::operator&` (`gcd`), with an iteration budget for its loop.  The
last line scales by `1 / other.terms[0].coef`, read from the second operand as it was
passed in. -/
def gcd [Zero K] [One K] [DecidableEq K] [Add K] [Sub K] [Mul K] [Div K]
    (fuel : Nat) (a b : List (Term K)) : Except Fault (List (Term K)) := do
  let (copy, c_other) ← gcdLoop fuel (ofTerms a) b
  let o ← nth c_other 0
  if o.coef ≠ 0 then Except.ok (ofTerm ⟨1, 0⟩)
  else
    let b0 ← nth b 0
    Except.ok (mulT copy ⟨1 / b0.coef, 0⟩)

/-- Source: `Polynomial::operator|` (`lcm`). -/
def lcm [Zero K] [One K] [DecidableEq K] [Add K] [Sub K] [Mul K] [Div K]
    (fuel : Nat) (a b : List (Term K)) : Except Fault (List (Term K)) := do
  let copy := ofTerms a
  let g ← gcd fuel copy b
  div (mul b copy) g

/-- Source: `Polynomial::operator^`: `(other | copy) / (copy & other)`. -/
def pxor [Zero K] [One K] [DecidableEq K] [Add K] [Sub K] [Mul K] [Div K]
    (fuel : Nat) (a b : List (Term K)) : Except Fault (List (Term K)) := do
  let copy := ofTerms a
  let l ← lcm fuel b copy
  let g ← gcd fuel copy b
  div l g

/-- Source: `Polynomial::operator<<`: every term of the normalized copy that has an index in the
receiver is shifted up, then the constant-of-integration term `(NaN, 0)` is added. -/
def shl [Zero K] [DecidableEq K] [Add K] [Div K] [NatCast K] [HasNaN K]
    (a : List (Term K)) (n : Nat) : Except Fault (List (Term K)) :=
  let result := ofTerms a
  if a.length ≤ result.length then
    Except.ok (addTerm ((result.take a.length).map (fun t => t.shl n) ++ result.drop a.length)
      ⟨HasNaN.nan, 0⟩)
  else Except.error Fault.outOfRange

/-- Source: `Polynomial::operator>>`: as `operator<<` with the downward shift; the result is
returned through the copy constructor, which does not call `combine`. -/
def shr [Zero K] [Add K] [Mul K] [NatCast K]
    (a : List (Term K)) (n : Nat) : Except Fault (List (Term K)) :=
  let result := ofTerms a
  if a.length ≤ result.length then
    Except.ok ((result.take a.length).map (fun t => t.shr n) ++ result.drop a.length)
  else Except.error Fault.outOfRange

/-- Source: `Polynomial::integral()`. -/
def integral [Zero K] [DecidableEq K] [Add K] [Div K] [NatCast K] [HasNaN K]
    (a : List (Term K)) : Except Fault (List (Term K)) :=
  shl a 1

/-- Source: `Term::at`: `coef * std::pow(value, exp)`. -/
def Term.atPoint [Mul K] [Pow K Nat] (t : Term K) (value : K) : K :=
  t.coef * value ^ t.exp

/-- Source: `Term::evaluated`. -/
def Term.evaluated [Mul K] [Sub K] [Pow K Nat] (t : Term K) (start stop : K) : K :=
  t.atPoint stop - t.atPoint start

/-- Source: `Polynomial::at`: the running sum starts at 0 and takes the terms in order. -/
def atPoint [Zero K] [Add K] [Mul K] [Pow K Nat] (ts : List (Term K)) (value : K) : K :=
  ts.foldl (fun result t => result + t.atPoint value) 0

/-- Source: `Polynomial::evaluated`. -/
def evaluated [Zero K] [Add K] [Sub K] [Mul K] [Pow K Nat] (ts : List (Term K))
    (start stop : K) : K :=
  atPoint ts stop - atPoint ts start

/-- Source: `Polynomial::integral(start, end)`: the copy is combined, its term at index
`terms.size() - 1` is popped when its coefficient is 0, every remaining term is shifted
up by one and the result is evaluated between the bounds. -/
def integralBetween [Zero K] [DecidableEq K] [Add K] [Sub K] [Mul K] [Div K] [NatCast K]
    [HasNaN K] [Pow K Nat] (a : List (Term K)) (start stop : K) : Except Fault K := do
  let result := combine (ofTerms a)
  let last ← nth result (a.length - 1)
  let result := if last.coef = 0 then result.dropLast else result
  let result := result.map (fun t => t.shl 1)
  Except.ok (evaluated result start stop)

/-- Source: `Term::print`, as the text written to the stream.  The argument `fmt` is the
stream's rendering of a float value.  In the negative branch the source negates its local
`c` and writes "-"; the branch that writes `c` is an `else if` of the same chain. -/
def Term.print (fmt : ℚ → String) (t : Term Coef) (wrap : Bool) : String :=
  let head :=
    match t.coef with
    | Coef.nan => "C"
    | Coef.ninf => "-"
    | Coef.pinf => "inf"
    | Coef.num c =>
      if c < 0 then "-"
      else if c ≠ 1 ∨ t.exp = 0 then fmt c
      else ""
  let tail :=
    if t.exp = 1 then "x"
    else if t.coef ≠ 0 ∧ t.exp ≠ 0 then "x^" ++ toString t.exp
    else ""
  head ++ tail ++ (if wrap then "\n" else "")

/-- The form the drop-zero step is described to return: the combined list without its
zero-coefficient terms, or the single term `0*x^0` when every coefficient is 0. -/
def minimalForm [Zero K] [DecidableEq K] [Add K] (ts : List (Term K)) : List (Term K) :=
  if (combine ts).all (fun t => t.coef = 0) then [⟨0, 0⟩]
  else (combine ts).filter (fun t => t.coef ≠ 0)

/-- A term list with numeric coefficients, as a list over the tagged coefficients. -/
def ofRat (ps : List (Term ℚ)) : List (Term Coef) :=
  ps.map (fun t => ⟨Coef.num t.coef, t.exp⟩)

/-- The power-rule antiderivative of a numeric term: `c / (e + 1) * x ^ (e + 1)`. -/
def Term.anti (t : Term ℚ) : Term ℚ := ⟨t.coef / ((t.exp + 1 : ℕ) : ℚ), t.exp + 1⟩

/-- The stripping step of the calculus-inverse property: the constant-of-integration
term, NaN coefficient at exponent 0, is removed. -/
def stripConstant [DecidableEq K] [HasNaN K] (ts : List (Term K)) : List (Term K) :=
  ts.filter (fun t => ¬ (t.coef = HasNaN.nan ∧ t.exp = 0))

/-- The coefficient a term list carries at exponent `e`: the sum over its terms with
that exponent. -/
def coeff [Zero K] [Add K] (ts : List (Term K)) (e : Nat) : K :=
  ((ts.filter (fun t => t.exp = e)).map Term.coef).sum

/-- Normalized form: exponents strictly decreasing along the list. -/
abbrev StrictDesc (ts : List (Term K)) : Prop := ts.Pairwise (fun a b => b.exp < a.exp)

/-- Normalized form as the data model words it: exponents strictly decreasing, and no
exponent carried by two terms. -/
abbrev NormalForm (ts : List (Term K)) : Prop :=
  StrictDesc ts ∧ (ts.map Term.exp).Nodup

/-- The value of a term list in a ring `R`: the sum of `ι coef * x ^ exp`.  With
`R = ℚ[X]`, `ι = C` and `x = X` it is the polynomial the list denotes; with `R = ℚ` and
`ι` the identity it is the float-free reading of `Polynomial::at`. -/
def sem {R : Type} [Semiring R] (ι : ℚ → R) (x : R) (ts : List (Term ℚ)) : R :=
  (ts.map (fun t => ι t.coef * x ^ t.exp)).sum

/-- Dense form with top exponent `M`: the exponents are `M, M - 1, ..., 0`. -/
abbrev Dense (M : Nat) (ts : List (Term K)) : Prop :=
  ts.map Term.exp = (List.range (M + 1)).reverse

/-- Every term in front of index `s` carries coefficient 0. -/
abbrev ZeroBefore (copy : List (Term ℚ)) (s : Nat) : Prop :=
  ∀ j < s, ∀ t, copy[j]? = some t → t.coef = 0

/-- The degree of a term list: the largest exponent that carries a nonzero coefficient
(0 when there is none). -/
def degree (ts : List (Term ℚ)) : Nat :=
  ((ts.map Term.exp).filter (fun e => coeff ts e ≠ 0)).foldr max 0

end Defs

/-! ## Normalization -/

section Normalization

variable {K : Type}

instance expGe_total : IsTotal (Term K) (fun a b => b.exp ≤ a.exp) :=
  ⟨fun a b => Nat.le_total b.exp a.exp⟩

instance expGe_trans : IsTrans (Term K) (fun a b => b.exp ≤ a.exp) :=
  ⟨fun _ _ _ h₁ h₂ => Nat.le_trans h₂ h₁⟩

theorem sortDesc_sorted (ts : List (Term K)) :
    (sortDesc ts).Sorted (fun a b => b.exp ≤ a.exp) :=
  List.sorted_insertionSort _ ts

theorem sortDesc_perm (ts : List (Term K)) : (sortDesc ts).Perm ts :=
  List.perm_insertionSort _ ts

theorem sortDesc_eq_self {ts : List (Term K)} (h : StrictDesc ts) : sortDesc ts = ts := by
  apply List.Sorted.insertionSort_eq
  exact List.Pairwise.imp (fun h => Nat.le_of_lt h) h

theorem mergeFrom_ne_nil [Add K] (rest : List (Term K)) (acc : Term K) :
    mergeFrom acc rest ≠ [] := by
  induction rest generalizing acc with
  | nil => simp [mergeFrom]
  | cons u rest ih =>
    unfold mergeFrom
    split
    · simp
    · exact ih _

theorem mergeFrom_strict [Add K] (rest : List (Term K)) (acc : Term K)
    (h : (acc :: rest).Sorted (fun a b => b.exp ≤ a.exp)) :
    StrictDesc (mergeFrom acc rest) ∧ ∀ t ∈ mergeFrom acc rest, t.exp ≤ acc.exp := by
  induction rest generalizing acc with
  | nil => simp [mergeFrom]
  | cons u rest ih =>
    have hs := List.pairwise_cons.1 h
    have hu : u.exp ≤ acc.exp := hs.1 u (List.mem_cons_self _ _)
    have hrest := List.pairwise_cons.1 hs.2
    unfold mergeFrom
    split
    · next hne =>
      obtain ⟨h1, h2⟩ := ih u hs.2
      refine ⟨List.pairwise_cons.2 ⟨fun t ht => ?_, h1⟩, fun t ht => ?_⟩
      · exact lt_of_le_of_lt (h2 t ht) (lt_of_le_of_ne hu hne)
      · rcases List.mem_cons.1 ht with rfl | ht
        · exact le_refl _
        · exact le_trans (h2 t ht) hu
    · next heq =>
      have hs' : (({ coef := acc.coef + u.coef, exp := acc.exp } : Term K) :: rest).Sorted
          (fun a b => b.exp ≤ a.exp) :=
        List.pairwise_cons.2 ⟨fun t ht => hs.1 t (List.mem_cons_of_mem _ ht), hrest.2⟩
      exact ih _ hs'

theorem mergeFrom_eq_self [Add K] (rest : List (Term K)) (acc : Term K)
    (h : StrictDesc (acc :: rest)) : mergeFrom acc rest = acc :: rest := by
  induction rest generalizing acc with
  | nil => simp [mergeFrom]
  | cons u rest ih =>
    have hs := List.pairwise_cons.1 h
    have hu : u.exp < acc.exp := hs.1 u (List.mem_cons_self _ _)
    unfold mergeFrom
    rw [if_pos (Nat.ne_of_lt hu), ih u hs.2]

theorem combine_strict [Add K] (ts : List (Term K)) : StrictDesc (combine ts) := by
  unfold combine
  have hs := sortDesc_sorted ts
  split
  · exact List.Pairwise.nil
  · next t rest heq =>
    rw [heq] at hs
    exact (mergeFrom_strict rest t hs).1

theorem combine_eq_self [Add K] {ts : List (Term K)} (h : StrictDesc ts) : combine ts = ts := by
  unfold combine
  rw [sortDesc_eq_self h]
  cases ts with
  | nil => rfl
  | cons t rest => exact mergeFrom_eq_self rest t h

theorem combine_eq_nil [Add K] (ts : List (Term K)) : combine ts = [] ↔ ts = [] := by
  unfold combine
  constructor
  · intro h
    split at h
    · next heq =>
      have := (sortDesc_perm ts).symm
      rw [heq] at this
      exact List.Perm.eq_nil this
    · exact absurd h (mergeFrom_ne_nil _ _)
  · rintro rfl
    rfl

theorem combine_idem [Add K] (ts : List (Term K)) : combine (combine ts) = combine ts :=
  combine_eq_self (combine_strict ts)

theorem mem_exps_mergeFrom [Add K] (rest : List (Term K)) (acc : Term K) (e : Nat) :
    e ∈ (mergeFrom acc rest).map Term.exp ↔ e = acc.exp ∨ e ∈ rest.map Term.exp := by
  induction rest generalizing acc with
  | nil => simp [mergeFrom]
  | cons u rest ih =>
    unfold mergeFrom
    split
    · simp [ih]
    · next h =>
      have h' : u.exp = acc.exp := not_not.1 h
      rw [ih]
      simp [h']

theorem mem_exps_combine [Add K] (ts : List (Term K)) (e : Nat) :
    e ∈ (combine ts).map Term.exp ↔ e ∈ ts.map Term.exp := by
  have hp := (sortDesc_perm ts).map Term.exp
  rw [← hp.mem_iff]
  unfold combine
  split
  · next h => simp [h]
  · next t rest h => rw [h, mem_exps_mergeFrom]; simp

theorem mem_exps_addTerm [Add K] (ts : List (Term K)) (t : Term K) (e : Nat) :
    e ∈ (addTerm ts t).map Term.exp ↔ e ∈ ts.map Term.exp ∨ e = t.exp := by
  unfold addTerm
  rw [mem_exps_combine, List.map_append, List.mem_append]
  simp

theorem addTerm_ne_nil [Add K] (ts : List (Term K)) (t : Term K) : addTerm ts t ≠ [] := by
  simp [addTerm, combine_eq_nil]

theorem strictDesc_exps {ts : List (Term K)} (h : StrictDesc ts) :
    (ts.map Term.exp).Sorted (fun a b => b < a) :=
  List.pairwise_map.2 h

theorem strictDesc_nodup {ts : List (Term K)} (h : StrictDesc ts) :
    (ts.map Term.exp).Nodup :=
  (strictDesc_exps h).imp (fun h => Nat.ne_of_gt h)

/-- A strictly decreasing list that has every exponent below `i` and at most `i` terms is
the dense list of `i` terms. -/
theorem exps_eq_of_length_le {ts : List (Term K)} (h : StrictDesc ts) (i : Nat)
    (hall : ∀ j < i, j ∈ ts.map Term.exp) (hlen : ts.length ≤ i) :
    ts.map Term.exp = (List.range i).reverse := by
  have hnd := strictDesc_nodup h
  have hsub : Finset.range i ⊆ (ts.map Term.exp).toFinset := by
    intro j hj
    exact List.mem_toFinset.2 (hall j (Finset.mem_range.1 hj))
  have hcard : (ts.map Term.exp).toFinset.card ≤ (Finset.range i).card := by
    rw [List.toFinset_card_of_nodup hnd, Finset.card_range, List.length_map]
    exact hlen
  have heq := Finset.eq_of_subset_of_card_le hsub hcard
  have hperm : (ts.map Term.exp).Perm (List.range i).reverse := by
    apply (List.perm_ext_iff_of_nodup hnd (List.nodup_reverse.2 (List.nodup_range i))).2
    intro e
    rw [List.mem_reverse, List.mem_range, ← Finset.mem_range, heq, List.mem_toFinset]
  refine List.eq_of_perm_of_sorted hperm (strictDesc_exps h) ?_
  rw [List.Sorted, List.pairwise_reverse]
  exact (List.pairwise_lt_range i)

theorem fillLoop_spec [Zero K] [Add K] (M : Nat) (n i : Nat) (ts : List (Term K))
    (h : StrictDesc ts) (hne : ts ≠ [])
    (hall : ∀ j < i, j ∈ ts.map Term.exp) (hle : ∀ e ∈ ts.map Term.exp, e ≤ M)
    (hM : M ∈ ts.map Term.exp) (hn : M + 2 ≤ n + i) :
    ∃ k r, fillLoop n i ts = Except.ok r ∧ Dense M r ∧
      r = (List.range k).foldl (fun l j => addTerm l ⟨0, i + j⟩) ts := by
  induction n generalizing i ts with
  | zero =>
    exfalso
    have := hle _ (hall (M + 1) (by omega))
    omega
  | succ n ih =>
    unfold fillLoop
    by_cases hlt : i < ts.length
    · rw [if_pos hlt]
      have hiM : i ≤ M := by
        by_contra hcon
        have h1 := exps_eq_of_length_le h (M + 1) (fun j hj => hall j (by omega)) ?_
        · have : ts.length = M + 1 := by
            have := congrArg List.length h1
            simpa using this
          have h2 := exps_eq_of_length_le h i hall (by omega)
          have := congrArg List.length h2
          simp at this
          omega
        · by_contra hcon2
          have h2 : (ts.map Term.exp).toFinset ⊆ Finset.range (M + 1) := by
            intro e he
            exact Finset.mem_range.2 (Nat.lt_succ_of_le (hle e (List.mem_toFinset.1 he)))
          have := Finset.card_le_card h2
          rw [List.toFinset_card_of_nodup (strictDesc_nodup h), Finset.card_range,
            List.length_map] at this
          omega
      obtain ⟨k, r, h1, h2, h3⟩ := ih (i + 1) (addTerm ts ⟨0, i⟩) (combine_strict _)
        (addTerm_ne_nil _ _)
        (fun j hj => by
          rw [mem_exps_addTerm]
          rcases Nat.lt_succ_iff_lt_or_eq.1 hj with h | h
          · exact Or.inl (hall j h)
          · exact Or.inr h)
        (fun e he => by
          rw [mem_exps_addTerm] at he
          rcases he with he | he
          · exact hle e he
          · rw [he]; exact hiM)
        (by rw [mem_exps_addTerm]; exact Or.inl hM)
        (by omega)
      refine ⟨k + 1, r, h1, h2, ?_⟩
      rw [h3, List.range_succ_eq_map, List.foldl_cons, List.foldl_map]
      simp only [Nat.add_zero, Nat.succ_eq_add_one]
      congr 1
      funext l j
      congr 2
      omega
    · rw [if_neg hlt]
      refine ⟨0, ts, rfl, ?_, by simp⟩
      have h1 := exps_eq_of_length_le h i hall (by omega)
      have hi : i = M + 1 := by
        have hmem : M ∈ (List.range i).reverse := h1 ▸ hM
        have hMi : M < i := by simpa using hmem
        by_contra hcon
        have := hle _ (hall (M + 1) (by omega))
        omega
      rw [hi] at h1
      exact h1

theorem le_maxExp (ts : List (Term K)) : ∀ t ∈ ts, t.exp ≤ maxExp ts := by
  induction ts with
  | nil => simp
  | cons u ts ih =>
    intro t ht
    simp only [maxExp, List.foldr_cons]
    rcases List.mem_cons.1 ht with rfl | ht
    · exact le_max_left _ _
    · exact le_trans (ih t ht) (le_max_right _ _)

theorem maxExp_mem (ts : List (Term K)) (hne : ts ≠ []) : maxExp ts ∈ ts.map Term.exp := by
  induction ts with
  | nil => exact absurd rfl hne
  | cons u ts ih =>
    simp only [maxExp, List.foldr_cons, List.map_cons, List.mem_cons]
    by_cases hts : ts = []
    · subst hts
      simp
    · rcases le_total u.exp (maxExp ts) with h | h
      · right
        have := ih hts
        simp only [maxExp] at this h
        rw [max_eq_right h]
        exact this
      · left
        simp only [maxExp] at h
        exact max_eq_left h

theorem dense_strictDesc {M : Nat} {ts : List (Term K)} (h : Dense M ts) : StrictDesc ts := by
  have : (ts.map Term.exp).Pairwise (fun a b => b < a) := by
    rw [h, List.pairwise_reverse]
    exact List.pairwise_lt_range _
  exact List.pairwise_map.1 this

theorem dense_length {M : Nat} {ts : List (Term K)} (h : Dense M ts) : ts.length = M + 1 := by
  have := congrArg List.length h
  simpa using this

theorem dense_getElem? {M : Nat} {ts : List (Term K)} (h : Dense M ts) (j : Nat) (hj : j ≤ M) :
    ∃ t, ts[j]? = some t ∧ t.exp = M - j := by
  have hlen := dense_length h
  have hj' : j < ts.length := by omega
  refine ⟨ts[j], List.getElem?_eq_getElem hj', ?_⟩
  have h1 : (ts.map Term.exp)[j]? = ((List.range (M + 1)).reverse)[j]? := by rw [h]
  rw [List.getElem?_map, List.getElem?_eq_getElem hj', List.getElem?_reverse (by simpa using by omega)] at h1
  simp only [Option.map_some', List.length_range] at h1
  rw [List.getElem?_range (by omega)] at h1
  have := Option.some.inj h1
  omega

theorem fill_spec [Zero K] [Add K] (ts : List (Term K)) (hne : ts ≠ []) :
    ∃ k r, fill ts = Except.ok r ∧ Dense (maxExp ts) r ∧
      r = (List.range k).foldl (fun l j => addTerm l ⟨0, j⟩) ts := by
  unfold fill
  have hpos : 0 < ts.length := List.length_pos.2 hne
  rw [show maxExp ts + 2 = (maxExp ts + 1) + 1 from rfl, fillLoop, if_pos hpos]
  obtain ⟨k, r, h1, h2, h3⟩ := fillLoop_spec (maxExp ts) (maxExp ts + 1) 1 (addTerm ts ⟨0, 0⟩)
    (combine_strict _) (addTerm_ne_nil _ _)
    (fun j hj => by
      rw [mem_exps_addTerm]
      right
      simp only
      omega)
    (fun e he => by
      rw [mem_exps_addTerm] at he
      rcases he with he | he
      · obtain ⟨t, ht, rfl⟩ := List.mem_map.1 he
        exact le_maxExp ts t ht
      · rw [he]; exact Nat.zero_le _)
    (by rw [mem_exps_addTerm]; exact Or.inl (maxExp_mem ts hne))
    (by omega)
  refine ⟨k + 1, r, h1, h2, ?_⟩
  rw [h3, List.range_succ_eq_map, List.foldl_cons, List.foldl_map]
  congr 1
  funext l j
  congr 2
  omega

theorem fill_ok [Zero K] [Add K] (ts : List (Term K)) : ∃ r, fill ts = Except.ok r := by
  by_cases hne : ts = []
  · subst hne
    exact ⟨[], rfl⟩
  · obtain ⟨_, r, h, _⟩ := fill_spec ts hne
    exact ⟨r, h⟩

theorem zeroLoop_ne_nil [Zero K] [DecidableEq K] (l : List (Term K)) (h : l ≠ []) :
    zeroLoop l ≠ [] := by
  induction l with
  | nil => exact absurd rfl h
  | cons t l ih =>
    cases l with
    | nil => simp [zeroLoop]
    | cons u rest =>
      unfold zeroLoop
      split
      · exact ih (by simp)
      · simp

theorem zeroLoop_sublist [Zero K] [DecidableEq K] (l : List (Term K)) :
    (zeroLoop l).Sublist l := by
  induction l with
  | nil => simp [zeroLoop]
  | cons t l ih =>
    cases l with
    | nil => simp [zeroLoop]
    | cons u rest =>
      unfold zeroLoop
      split
      · exact ih.cons _
      · exact ih.cons₂ _

theorem zeroLoop_all_zero [Zero K] [DecidableEq K] (l : List (Term K)) (hne : l ≠ [])
    (h : ∀ u ∈ l, u.coef = 0) : zeroLoop l = [l.getLast hne] := by
  induction l with
  | nil => exact absurd rfl hne
  | cons t l ih =>
    cases l with
    | nil => simp [zeroLoop]
    | cons u rest =>
      unfold zeroLoop
      rw [if_pos (h t (List.mem_cons_self _ _)),
        ih (by simp) (fun v hv => h v (List.mem_cons_of_mem _ hv))]
      simp

theorem zeroLoop_head [Zero K] [DecidableEq K] (l : List (Term K))
    (h : ∃ u ∈ l, u.coef ≠ 0) : ∃ t r, zeroLoop l = t :: r ∧ t.coef ≠ 0 := by
  induction l with
  | nil => simp at h
  | cons t l ih =>
    cases l with
    | nil =>
      obtain ⟨u, hu, hu0⟩ := h
      rw [List.mem_singleton] at hu
      subst hu
      exact ⟨u, [], rfl, hu0⟩
    | cons u rest =>
      unfold zeroLoop
      by_cases ht : t.coef = 0
      · rw [if_pos ht]
        apply ih
        obtain ⟨v, hv, hv0⟩ := h
        rcases List.mem_cons.1 hv with rfl | hv
        · exact absurd ht hv0
        · exact ⟨v, hv, hv0⟩
      · rw [if_neg ht]
        exact ⟨t, _, rfl, ht⟩

/-- Terms skipped by `zeroLoop` in front of its first kept term carry coefficient 0. -/
theorem zeroLoop_skipped [Zero K] [DecidableEq K] (l : List (Term K)) (hs : StrictDesc l)
    (t : Term K) (r : List (Term K)) (h : zeroLoop l = t :: r) :
    ∀ u ∈ l, t.exp < u.exp → u.coef = 0 := by
  induction l with
  | nil => simp
  | cons v l ih =>
    cases l with
    | nil =>
      simp only [zeroLoop, List.cons.injEq] at h
      intro u hu hlt
      rw [List.mem_singleton] at hu
      rw [hu, h.1] at hlt
      exact absurd hlt (lt_irrefl _)
    | cons w rest =>
      have hs' := List.pairwise_cons.1 hs
      unfold zeroLoop at h
      by_cases hv : v.coef = 0
      · rw [if_pos hv] at h
        intro u hu hlt
        rcases List.mem_cons.1 hu with rfl | hu
        · exact hv
        · exact ih hs'.2 h u hu hlt
      · rw [if_neg hv] at h
        have hvt : v = t := (List.cons.inj h).1
        intro u hu hlt
        rcases List.mem_cons.1 hu with rfl | hu
        · rw [hvt] at hlt
          exact absurd hlt (lt_irrefl _)
        · have := hs'.1 u hu
          rw [hvt] at this
          omega

theorem zero_remove_eq [Zero K] [DecidableEq K] [Add K] (ts : List (Term K)) (hne : ts ≠ []) :
    zero_remove ts = Except.ok (zeroLoop (combine ts)) := by
  unfold zero_remove
  split
  · next h => exact absurd ((combine_eq_nil ts).1 h) hne
  · next c cs h => rw [h]

end Normalization

/-! ## The ring value of a term list -/

section Sem

variable {R : Type} [CommRing R] (ι : ℚ →+* R) (x : R)

@[simp] theorem sem_nil : sem ι x [] = 0 := rfl

@[simp] theorem sem_cons (t : Term ℚ) (ts : List (Term ℚ)) :
    sem ι x (t :: ts) = ι t.coef * x ^ t.exp + sem ι x ts := by
  simp [sem]

@[simp] theorem sem_append (as bs : List (Term ℚ)) :
    sem ι x (as ++ bs) = sem ι x as + sem ι x bs := by
  simp [sem]

theorem sem_perm {as bs : List (Term ℚ)} (h : as.Perm bs) : sem ι x as = sem ι x bs := by
  unfold sem
  exact (h.map _).sum_eq

theorem sem_mergeFrom (rest : List (Term ℚ)) (acc : Term ℚ) :
    sem ι x (mergeFrom acc rest) = ι acc.coef * x ^ acc.exp + sem ι x rest := by
  induction rest generalizing acc with
  | nil => simp [mergeFrom]
  | cons u rest ih =>
    unfold mergeFrom
    split
    · simp [ih]
    · next h =>
      have h' : u.exp = acc.exp := not_not.1 h
      rw [ih]
      simp [h', add_mul, add_assoc]

@[simp] theorem sem_combine (ts : List (Term ℚ)) : sem ι x (combine ts) = sem ι x ts := by
  rw [← sem_perm ι x (sortDesc_perm ts)]
  unfold combine
  split
  · next h => simp [h]
  · next t rest h => rw [h, sem_mergeFrom, sem_cons]

@[simp] theorem sem_ofTerms (ts : List (Term ℚ)) : sem ι x (ofTerms ts) = sem ι x ts :=
  sem_combine ι x ts

@[simp] theorem sem_addTerm (ts : List (Term ℚ)) (t : Term ℚ) :
    sem ι x (addTerm ts t) = sem ι x ts + ι t.coef * x ^ t.exp := by
  simp [addTerm]

@[simp] theorem sem_zeroPoly : sem ι x (zeroPoly : List (Term ℚ)) = 0 := by
  simp [zeroPoly]

theorem sem_foldl_addTerm (f : Term ℚ → Term ℚ) (as r : List (Term ℚ)) :
    sem ι x (as.foldl (fun r t => addTerm r (f t)) r) = sem ι x r + sem ι x (as.map f) := by
  induction as generalizing r with
  | nil => simp
  | cons t as ih => simp [ih, add_assoc]

theorem sem_add (a b : List (Term ℚ)) : sem ι x (add a b) = sem ι x a + sem ι x b := by
  have h := sem_foldl_addTerm ι x id
  simp only [id, List.map_id'] at h
  simp [add, h]

theorem sem_map_neg (a : List (Term ℚ)) :
    sem ι x (a.map (fun t => (⟨-t.coef, t.exp⟩ : Term ℚ))) = - sem ι x a := by
  induction a with
  | nil => simp
  | cons t a ih => simp [ih]; ring

theorem sem_neg (a : List (Term ℚ)) : sem ι x (neg a) = - sem ι x a := by
  have h := sem_foldl_addTerm ι x Term.neg
  have h2 := sem_map_neg ι x a
  simp only [neg, h, sem_zeroPoly, zero_add]
  exact h2

theorem sem_sub (a b : List (Term ℚ)) : sem ι x (sub a b) = sem ι x a - sem ι x b := by
  have h := sem_foldl_addTerm ι x id
  have h1 := sem_foldl_addTerm ι x (fun t => (⟨-t.coef, t.exp⟩ : Term ℚ))
  simp only [id, List.map_id'] at h
  simp [sub, h, h1, sem_map_neg, sub_eq_add_neg]

theorem sem_map_mul (t : Term ℚ) (b : List (Term ℚ)) :
    sem ι x (b.map (fun u => t.mul u)) = ι t.coef * x ^ t.exp * sem ι x b := by
  induction b with
  | nil => simp
  | cons u b ih =>
    rw [List.map_cons, sem_cons, ih]
    simp only [Term.mul, map_mul, pow_add, sem_cons]
    ring

theorem sem_map_mul_right (t : Term ℚ) (b : List (Term ℚ)) :
    sem ι x (b.map (fun u => u.mul t)) = sem ι x b * (ι t.coef * x ^ t.exp) := by
  induction b with
  | nil => simp
  | cons u b ih =>
    rw [List.map_cons, sem_cons, ih]
    simp only [Term.mul, map_mul, pow_add, sem_cons]
    ring

theorem sem_mulT (a : List (Term ℚ)) (t : Term ℚ) :
    sem ι x (mulT a t) = sem ι x a * (ι t.coef * x ^ t.exp) := by
  have h := sem_foldl_addTerm ι x (fun u => u.mul t)
  simp [mulT, h, sem_map_mul_right]

theorem sem_mul_foldl (a b r : List (Term ℚ)) :
    sem ι x (a.foldl (fun r t => b.foldl (fun r u => addTerm r (t.mul u)) r) r)
      = sem ι x r + sem ι x a * sem ι x b := by
  induction a generalizing r with
  | nil => simp
  | cons t a ih =>
    rw [List.foldl_cons, ih, sem_foldl_addTerm ι x (fun u => t.mul u), sem_map_mul, sem_cons]
    ring

theorem sem_mul (a b : List (Term ℚ)) : sem ι x (mul a b) = sem ι x a * sem ι x b := by
  simp [mul, sem_mul_foldl]

end Sem

theorem coeff_eq_sem (ts : List (Term ℚ)) (e : Nat) :
    coeff ts e = (sem Polynomial.C Polynomial.X ts).coeff e := by
  induction ts with
  | nil => simp [coeff]
  | cons t ts ih =>
    rw [sem_cons, Polynomial.coeff_add, ← ih, Polynomial.coeff_C_mul_X_pow]
    unfold coeff
    by_cases h : t.exp = e
    · simp [List.filter_cons, h]
    · have h' : ¬ e = t.exp := fun h' => h h'.symm
      simp [List.filter_cons, h, h']

/-! ## Long division -/

section Sem2

variable {R : Type} [CommRing R] (ι : ℚ →+* R) (x : R)

theorem sem_zeroLoop (l : List (Term ℚ)) : sem ι x (zeroLoop l) = sem ι x l := by
  induction l with
  | nil => simp [zeroLoop]
  | cons t l ih =>
    cases l with
    | nil => simp [zeroLoop]
    | cons u rest =>
      unfold zeroLoop
      split
      · next h => rw [ih, sem_cons ι x t, h]; simp
      · rw [sem_cons, ih, sem_cons ι x t]

theorem sem_foldl_zeros (f : Nat → Nat) (js : List Nat) (ts : List (Term ℚ)) :
    sem ι x (js.foldl (fun l j => addTerm l ⟨0, f j⟩) ts) = sem ι x ts := by
  induction js generalizing ts with
  | nil => rfl
  | cons j js ih => rw [List.foldl_cons, ih, sem_addTerm]; simp

theorem sem_eq_zero_of_coefs (l : List (Term ℚ)) (h : ∀ u ∈ l, u.coef = 0) :
    sem ι x l = 0 := by
  induction l with
  | nil => rfl
  | cons t l ih =>
    rw [sem_cons, h t (List.mem_cons_self _ _), ih (fun u hu => h u (List.mem_cons_of_mem _ hu))]
    simp

theorem sem_set (copy : List (Term ℚ)) (k : Nat) (t u : Term ℚ) (h : copy[k]? = some t) :
    sem ι x (copy.set k u) = sem ι x copy - ι t.coef * x ^ t.exp + ι u.coef * x ^ u.exp := by
  induction copy generalizing k with
  | nil => simp at h
  | cons c copy ih =>
    cases k with
    | zero =>
      simp only [List.getElem?_cons_zero, Option.some.injEq] at h
      subst h
      simp only [List.set_cons_zero, sem_cons]
      ring
    | succ k =>
      simp only [List.getElem?_cons_succ] at h
      simp only [List.set_cons_succ, sem_cons, ih k h]
      ring

theorem elimRow_spec (val : ℚ) (E : Nat) (os : List (Term ℚ)) (k : Nat) (copy : List (Term ℚ))
    (halign : ∀ j o, os[j]? = some o → ∃ t, copy[k + j]? = some t ∧ t.exp = o.exp + E) :
    ∃ copy', elimRow val os k copy = Except.ok copy' ∧
      copy'.map Term.exp = copy.map Term.exp ∧
      sem ι x copy' = sem ι x copy - ι val * x ^ E * sem ι x os ∧
      (∀ j < k, copy'[j]? = copy[j]?) ∧
      (∀ o os', os = o :: os' → ∀ t, copy[k]? = some t →
        copy'[k]? = some ⟨t.coef - o.coef * val, t.exp⟩) := by
  induction os generalizing k copy with
  | nil =>
    refine ⟨copy, rfl, rfl, by simp, fun _ _ => rfl, ?_⟩
    intro o os' h
    exact absurd h (by simp)
  | cons o os ih =>
    obtain ⟨t, ht, hte⟩ := halign 0 o (by simp)
    rw [Nat.add_zero] at ht
    have hk : k < copy.length := by
      by_contra hcon
      rw [List.getElem?_eq_none (by omega)] at ht
      exact absurd ht (by simp)
    obtain ⟨copy', h1, h2, h3, h4, h5⟩ := ih (k + 1)
      (copy.set k ⟨t.coef - o.coef * val, t.exp⟩)
      (fun j o' ho' => by
        obtain ⟨t', ht', hte'⟩ := halign (j + 1) o' (by simpa using ho')
        refine ⟨t', ?_, hte'⟩
        rw [List.getElem?_set_ne (by omega)]
        rw [← ht']
        congr 1
        omega)
    refine ⟨copy', ?_, ?_, ?_, ?_, ?_⟩
    · rw [elimRow, ht]
      exact h1
    · rw [h2, List.map_set]
      apply List.ext_getElem?
      intro j
      by_cases hj : k = j
      · subst hj
        rw [List.getElem?_set_self (by simpa using hk), List.getElem?_map, ht]
        rfl
      · rw [List.getElem?_set_ne hj]
    · rw [h3, sem_set ι x copy k t _ ht, sem_cons, hte]
      simp only [map_sub, map_mul, pow_add]
      ring
    · intro j hj
      rw [h4 j (by omega), List.getElem?_set_ne (by omega)]
    · intro o' os' heq t' ht'
      rw [ht] at ht'
      have := Option.some.inj ht'
      subst this
      have := (List.cons.inj heq).1
      subst this
      rw [h4 k (by omega), List.getElem?_set_self hk]

theorem elimStep_spec (M d shift : Nat) (c_other copy : List (Term ℚ))
    (hc : Dense M copy) (ho : Dense d c_other) (hsd : shift + d ≤ M)
    (o : Term ℚ) (rest : List (Term ℚ)) (hco : c_other = o :: rest) (ho0 : o.coef ≠ 0) :
    ∃ t copy', copy[shift]? = some t ∧
      elimStep c_other copy shift = Except.ok (t.coef / o.coef, copy') ∧
      Dense M copy' ∧
      sem ι x copy' = sem ι x copy - ι (t.coef / o.coef) * x ^ (M - d - shift) * sem ι x c_other ∧
      (∀ j < shift, copy'[j]? = copy[j]?) ∧
      (∃ t', copy'[shift]? = some t' ∧ t'.coef = 0) := by
  obtain ⟨t, ht, _⟩ := dense_getElem? hc shift (by omega)
  have halign : ∀ j o', c_other[j]? = some o' →
      ∃ t, copy[shift + j]? = some t ∧ t.exp = o'.exp + (M - d - shift) := by
    intro j o' ho'
    have hj : j < c_other.length := by
      by_contra hcon
      rw [List.getElem?_eq_none (by omega)] at ho'
      exact absurd ho' (by simp)
    rw [dense_length ho] at hj
    obtain ⟨o'', h1, h2⟩ := dense_getElem? ho j (by omega)
    rw [h1] at ho'
    have := Option.some.inj ho'
    subst this
    obtain ⟨t', h3, h4⟩ := dense_getElem? hc (shift + j) (by omega)
    exact ⟨t', h3, by omega⟩
  obtain ⟨copy', h1, h2, h3, h4, h5⟩ :=
    elimRow_spec ι x (t.coef / o.coef) (M - d - shift) c_other shift copy halign
  refine ⟨t, copy', ht, ?_, ?_, h3, h4, ?_⟩
  · have hn : nth c_other 0 = Except.ok o := by simp [nth, hco]
    have hn2 : nth copy shift = Except.ok t := by simp [nth, ht]
    simp only [elimStep, hn, hn2, bind, Except.bind, if_neg ho0, h1]
  · show copy'.map Term.exp = _
    rw [h2]
    exact hc
  · refine ⟨_, h5 o rest hco t ht, ?_⟩
    simp only
    field_simp

theorem longDiv_loop_spec (M d exp_max : Nat) (hM : M = d + exp_max)
    (c_other : List (Term ℚ)) (ho : Dense d c_other)
    (o : Term ℚ) (rest : List (Term ℚ)) (hco : c_other = o :: rest) (ho0 : o.coef ≠ 0)
    (n shift : Nat) (copy result : List (Term ℚ)) (hn : shift + n = exp_max + 1)
    (hc : Dense M copy) (hz : ZeroBefore copy shift) :
    ∃ copy' result', modLoop c_other n shift copy = Except.ok copy' ∧
      divLoop c_other exp_max n shift copy result = Except.ok result' ∧
      Dense M copy' ∧ ZeroBefore copy' (exp_max + 1) ∧
      sem ι x c_other * sem ι x result' + sem ι x copy'
        = sem ι x c_other * sem ι x result + sem ι x copy ∧
      (result ≠ [] → result' ≠ []) := by
  induction n generalizing shift copy result with
  | zero =>
    refine ⟨copy, result, rfl, rfl, hc, ?_, rfl, id⟩
    have : shift = exp_max + 1 := by omega
    rw [← this]
    exact hz
  | succ n ih =>
    obtain ⟨t, copy1, ht, h1, h2, h3, h4, t', h5, h6⟩ :=
      elimStep_spec ι x M d shift c_other copy hc ho (by omega) o rest hco ho0
    have hz1 : ZeroBefore copy1 (shift + 1) := by
      intro j hj u hu
      rcases Nat.lt_succ_iff_lt_or_eq.1 hj with hlt | heq
      · rw [h4 j hlt] at hu
        exact hz j hlt u hu
      · subst heq
        rw [h5] at hu
        rw [← Option.some.inj hu]
        exact h6
    obtain ⟨copy', result', g1, g2, g3, g4, g5, g6⟩ :=
      ih (shift + 1) copy1 (addTerm result ⟨t.coef / o.coef, exp_max - shift⟩) (by omega) h2 hz1
    refine ⟨copy', result', ?_, ?_, g3, g4, ?_, fun _ => g6 (addTerm_ne_nil _ _)⟩
    · rw [modLoop, h1]
      exact g1
    · rw [divLoop, h1]
      exact g2
    · rw [g5, h3, sem_addTerm]
      have : M - d - shift = exp_max - shift := by omega
      rw [this]
      ring

theorem sem_fill (ts r : List (Term ℚ)) (h : fill ts = Except.ok r) :
    sem ι x r = sem ι x ts := by
  by_cases hne : ts = []
  · subst hne
    have : fill ([] : List (Term ℚ)) = Except.ok [] := rfl
    rw [this] at h
    rw [← Except.ok.inj h]
  · obtain ⟨k, r', h1, _, h3⟩ := fill_spec ts hne
    rw [h1] at h
    rw [← Except.ok.inj h, h3]
    exact sem_foldl_zeros ι x id _ ts

end Sem2

theorem coeff_cons (t : Term ℚ) (ts : List (Term ℚ)) (e : Nat) :
    coeff (t :: ts) e = (if t.exp = e then t.coef else 0) + coeff ts e := by
  unfold coeff
  by_cases h : t.exp = e
  · simp [List.filter_cons, h]
  · simp [List.filter_cons, h]

theorem coeff_of_not_mem (ts : List (Term ℚ)) (e : Nat) (h : e ∉ ts.map Term.exp) :
    coeff ts e = 0 := by
  induction ts with
  | nil => simp [coeff]
  | cons t ts ih =>
    simp only [List.map_cons, List.mem_cons, not_or] at h
    rw [coeff_cons, if_neg (fun h' => h.1 h'.symm), ih h.2, add_zero]

theorem coeff_of_mem {ts : List (Term ℚ)} (hs : StrictDesc ts) (t : Term ℚ) (ht : t ∈ ts) :
    coeff ts t.exp = t.coef := by
  induction ts with
  | nil => simp at ht
  | cons u ts ih =>
    have hs' := List.pairwise_cons.1 hs
    rw [coeff_cons]
    rcases List.mem_cons.1 ht with rfl | ht
    · rw [if_pos rfl, coeff_of_not_mem, add_zero]
      intro hmem
      obtain ⟨v, hv, hve⟩ := List.mem_map.1 hmem
      have := hs'.1 v hv
      omega
    · have := hs'.1 t ht
      rw [if_neg (by omega), zero_add, ih hs'.2 ht]

theorem strictDesc_ext {as bs : List (Term ℚ)} (ha : StrictDesc as) (hb : StrictDesc bs)
    (hexp : as.map Term.exp = bs.map Term.exp) (hco : ∀ e, coeff as e = coeff bs e) :
    as = bs := by
  apply List.ext_getElem?
  intro j
  have hlen : as.length = bs.length := by
    have := congrArg List.length hexp
    simpa using this
  by_cases hj : j < as.length
  · have hj' : j < bs.length := hlen ▸ hj
    rw [List.getElem?_eq_getElem hj, List.getElem?_eq_getElem hj']
    have he : (as[j]).exp = (bs[j]).exp := by
      have h1 : (as.map Term.exp)[j]? = (bs.map Term.exp)[j]? := by rw [hexp]
      simpa [List.getElem?_map, List.getElem?_eq_getElem hj, List.getElem?_eq_getElem hj']
        using h1
    have hc : (as[j]).coef = (bs[j]).coef := by
      rw [← coeff_of_mem ha _ (List.getElem_mem hj), ← coeff_of_mem hb _ (List.getElem_mem hj'),
        he, hco]
    congr 1
    cases hx : as[j]
    cases hy : bs[j]
    rw [hx] at he hc
    rw [hy] at he hc
    simp only at he hc
    rw [he, hc]
  · rw [List.getElem?_eq_none (by omega), List.getElem?_eq_none (by omega)]

theorem strictDesc_exps_eq {as bs : List (Term ℚ)} (ha : StrictDesc as) (hb : StrictDesc bs)
    (hmem : ∀ e, e ∈ as.map Term.exp ↔ e ∈ bs.map Term.exp) :
    as.map Term.exp = bs.map Term.exp :=
  List.eq_of_perm_of_sorted
    ((List.perm_ext_iff_of_nodup (strictDesc_nodup ha) (strictDesc_nodup hb)).2 hmem)
    (strictDesc_exps ha) (strictDesc_exps hb)

/-- The merge pass gives the result of `combine` on every arrangement of the terms that
is sorted by descending exponent: the order `std::sort` leaves inside a run of equal
exponents does not show in the result. -/
theorem combine_sort_independent (ts : List (Term ℚ)) (t : Term ℚ) (rest : List (Term ℚ))
    (hperm : (t :: rest).Perm ts) (hsorted : (t :: rest).Sorted (fun a b => b.exp ≤ a.exp)) :
    mergeFrom t rest = combine ts := by
  have h1 := (mergeFrom_strict rest t hsorted).1
  apply strictDesc_ext h1 (combine_strict ts)
  · apply strictDesc_exps_eq h1 (combine_strict ts)
    intro e
    rw [mem_exps_mergeFrom, mem_exps_combine, ← (hperm.map Term.exp).mem_iff]
    simp
  · intro e
    rw [coeff_eq_sem, coeff_eq_sem, sem_mergeFrom, sem_combine, ← sem_perm _ _ hperm, sem_cons]

theorem maxExp_cons_strict (o : Term ℚ) (rest : List (Term ℚ)) (hs : StrictDesc (o :: rest)) :
    maxExp (o :: rest) = o.exp := by
  apply le_antisymm
  · obtain ⟨t, ht, hte⟩ := List.mem_map.1 (maxExp_mem (o :: rest) (by simp))
    rw [← hte]
    rcases List.mem_cons.1 ht with rfl | ht
    · exact le_refl _
    · exact Nat.le_of_lt ((List.pairwise_cons.1 hs).1 t ht)
  · exact le_maxExp _ o (List.mem_cons_self _ _)

theorem fill_head (o : Term ℚ) (rest : List (Term ℚ)) (hs : StrictDesc (o :: rest)) :
    ∃ rest', fill (o :: rest) = Except.ok (o :: rest') ∧ Dense o.exp (o :: rest') := by
  obtain ⟨k, fb, h1, h2, h3⟩ := fill_spec (o :: rest) (by simp)
  rw [maxExp_cons_strict o rest hs] at h2
  obtain ⟨f0, hf0, hf0e⟩ := dense_getElem? h2 0 (Nat.zero_le _)
  cases fb with
  | nil => simp at hf0
  | cons f rest' =>
    simp only [List.getElem?_cons_zero, Option.some.injEq] at hf0
    subst hf0
    have hc : coeff (f :: rest') f.exp = coeff (o :: rest) f.exp := by
      rw [coeff_eq_sem, coeff_eq_sem, sem_fill Polynomial.C Polynomial.X _ _ h1]
    rw [coeff_of_mem (dense_strictDesc h2) f (List.mem_cons_self _ _)] at hc
    have hfe : f.exp = o.exp := by omega
    rw [hfe, coeff_of_mem hs o (List.mem_cons_self _ _)] at hc
    have : f = o := by
      cases f
      cases o
      simp only at hfe hc
      rw [hfe, hc]
    subst this
    exact ⟨rest', h1, h2⟩

section Sem3

variable {R : Type} [CommRing R] (ι : ℚ →+* R) (x : R)

theorem div_mod_spec (a b : List (Term ℚ)) (ha : a ≠ [])
    (o : Term ℚ) (rest : List (Term ℚ)) (hb : zeroLoop (combine b) = o :: rest)
    (ho : o.coef ≠ 0) :
    ∃ q r, div a b = Except.ok q ∧ mod a b = Except.ok r ∧
      sem ι x b * sem ι x q + sem ι x r = sem ι x a ∧
      StrictDesc r ∧ q ≠ [] ∧
      (∀ t ∈ r, o.exp ≤ t.exp → t.coef = 0) ∧
      ((r = combine a ∧ ∃ ta resta, zeroLoop (combine a) = ta :: resta ∧ ta.exp < o.exp) ∨
        ∃ M, Dense M r) := by
  have hbne : b ≠ [] := by
    rintro rfl
    simp [combine, sortDesc, zeroLoop] at hb
  have hzb : zero_remove b = Except.ok (o :: rest) := by rw [zero_remove_eq b hbne, hb]
  have hca : zeroLoop (combine a) ≠ [] :=
    zeroLoop_ne_nil _ (fun h => ha ((combine_eq_nil a).1 h))
  obtain ⟨ta, resta, hta⟩ := List.exists_cons_of_ne_nil hca
  have hza : zero_remove (ofTerms a) = Except.ok (ta :: resta) := by
    rw [ofTerms, zero_remove_eq _ (fun h => ha ((combine_eq_nil a).1 h)), combine_idem, hta]
  have hsa : StrictDesc (ta :: resta) :=
    hta ▸ (combine_strict a).sublist (zeroLoop_sublist _)
  have hsb : StrictDesc (o :: rest) :=
    hb ▸ (combine_strict b).sublist (zeroLoop_sublist _)
  obtain ⟨fa', hfa, hda⟩ := fill_head ta resta hsa
  obtain ⟨fb', hfb, hdb⟩ := fill_head o rest hsb
  have hna : nth (ta :: resta) 0 = Except.ok ta := by simp [nth]
  have hnb : nth (o :: rest) 0 = Except.ok o := by simp [nth]
  have hsemb : sem ι x (o :: fb') = sem ι x b := by
    rw [sem_fill ι x _ _ hfb, ← hb, sem_zeroLoop, sem_combine]
  have hsema : sem ι x (ta :: fa') = sem ι x a := by
    rw [sem_fill ι x _ _ hfa, ← hta, sem_zeroLoop, sem_combine]
  by_cases hlt : ta.exp < o.exp
  · have hneg : ((ta.exp : Int) - (o.exp : Int)) < 0 := by omega
    refine ⟨zeroPoly, ofTerms a, ?_, ?_, ?_, combine_strict a, ?_, ?_, Or.inl ⟨rfl, ta, resta, hta, hlt⟩⟩
    · simp only [div, hza, hzb, hna, hnb, hfa, hfb, bind, Except.bind, if_pos hneg]
    · simp only [mod, hza, hzb, hna, hnb, hfa, hfb, bind, Except.bind, if_pos hneg]
    · simp
    · simp [zeroPoly, ofTerms, combine_eq_nil]
    · intro t ht hot
      exact zeroLoop_skipped (combine a) (combine_strict a) ta resta hta t ht (by omega)
  · have hnneg : ¬ ((ta.exp : Int) - (o.exp : Int)) < 0 := by omega
    have htn : ((ta.exp : Int) - (o.exp : Int)).toNat = ta.exp - o.exp := by omega
    obtain ⟨copy', result', g1, g2, g3, g4, g5, g6⟩ :=
      longDiv_loop_spec ι x ta.exp o.exp (ta.exp - o.exp) (by omega) (o :: fb') hdb o fb' rfl ho
        (ta.exp - o.exp + 1) 0 (ta :: fa') zeroPoly (by omega) hda
        (fun j hj => absurd hj (Nat.not_lt_zero _))
    refine ⟨result', copy', ?_, ?_, ?_, dense_strictDesc g3, ?_, ?_, Or.inr ⟨_, g3⟩⟩
    · simp only [div, hza, hzb, hna, hnb, hfa, hfb, bind, Except.bind, if_neg hnneg, htn]
      exact g2
    · simp only [mod, hza, hzb, hna, hnb, hfa, hfb, bind, Except.bind, if_neg hnneg, htn]
      exact g1
    · rw [← hsemb, g5, hsema]
      simp
    · exact g6 (by simp [zeroPoly, ofTerms, combine_eq_nil])
    · intro t ht hot
      obtain ⟨j, hj, hjt⟩ := List.getElem_of_mem ht
      have hj' : j ≤ ta.exp := by
        have := dense_length g3
        omega
      obtain ⟨t', h1, h2⟩ := dense_getElem? g3 j hj'
      rw [List.getElem?_eq_getElem hj, hjt] at h1
      have := Option.some.inj h1
      subst this
      exact g4 j (by omega) t (by rw [List.getElem?_eq_getElem hj, hjt])

end Sem3

theorem le_foldr_max (l : List Nat) (e : Nat) (h : e ∈ l) : e ≤ l.foldr max 0 := by
  induction l with
  | nil => simp at h
  | cons a l ih =>
    rw [List.foldr_cons]
    rcases List.mem_cons.1 h with rfl | h
    · exact le_max_left _ _
    · exact le_trans (ih h) (le_max_right _ _)

theorem foldr_max_le (l : List Nat) (n : Nat) (h : ∀ e ∈ l, e ≤ n) : l.foldr max 0 ≤ n := by
  induction l with
  | nil => simp
  | cons a l ih =>
    rw [List.foldr_cons]
    exact max_le (h a (List.mem_cons_self _ _)) (ih (fun e he => h e (List.mem_cons_of_mem _ he)))

theorem foldr_max_lt (l : List Nat) (n : Nat) (hne : l ≠ []) (h : ∀ e ∈ l, e < n) :
    l.foldr max 0 < n := by
  induction l with
  | nil => exact absurd rfl hne
  | cons a l ih =>
    rw [List.foldr_cons]
    by_cases hl : l = []
    · subst hl
      simpa using h a (List.mem_cons_self _ _)
    · exact max_lt (h a (List.mem_cons_self _ _))
        (ih hl (fun e he => h e (List.mem_cons_of_mem _ he)))

theorem coeff_combine (ts : List (Term ℚ)) (e : Nat) : coeff (combine ts) e = coeff ts e := by
  rw [coeff_eq_sem, coeff_eq_sem, sem_combine]

theorem coeff_ne_zero_mem (ts : List (Term ℚ)) (e : Nat) (h : coeff ts e ≠ 0) :
    ∃ u ∈ ts, u.exp = e ∧ u.coef ≠ 0 := by
  induction ts with
  | nil => simp [coeff] at h
  | cons t ts ih =>
    rw [coeff_cons] at h
    by_cases hts : coeff ts e = 0
    · rw [hts, add_zero] at h
      by_cases hte : t.exp = e
      · rw [if_pos hte] at h
        exact ⟨t, List.mem_cons_self _ _, hte, h⟩
      · rw [if_neg hte] at h
        exact absurd rfl h
    · obtain ⟨u, hu, h1, h2⟩ := ih hts
      exact ⟨u, List.mem_cons_of_mem _ hu, h1, h2⟩

/-- A list with a nonzero coefficient somewhere keeps a nonzero leading term under
`zero_remove`. -/
theorem zeroLoop_head_of_coeff (b : List (Term ℚ)) (hnz : ∃ e, coeff b e ≠ 0) :
    ∃ o rest, zeroLoop (combine b) = o :: rest ∧ o.coef ≠ 0 := by
  obtain ⟨e, he⟩ := hnz
  rw [← coeff_combine] at he
  obtain ⟨u, hu, _, hu0⟩ := coeff_ne_zero_mem _ e he
  exact zeroLoop_head _ ⟨u, hu, hu0⟩

theorem degree_eq_lead (b : List (Term ℚ)) (o : Term ℚ) (rest : List (Term ℚ))
    (hb : zeroLoop (combine b) = o :: rest) (ho : o.coef ≠ 0) : degree b = o.exp := by
  have hs := combine_strict b
  have homem : o ∈ combine b :=
    (zeroLoop_sublist (combine b)).subset (hb ▸ List.mem_cons_self _ _)
  unfold degree
  apply le_antisymm
  · apply foldr_max_le
    intro e he
    rw [List.mem_filter] at he
    have hne : coeff b e ≠ 0 := by simpa using he.2
    rw [← coeff_combine] at hne
    obtain ⟨u, hu, hue, hu0⟩ := coeff_ne_zero_mem _ e hne
    by_contra hcon
    exact hu0 (zeroLoop_skipped _ hs o rest hb u hu (by omega))
  · apply le_foldr_max
    rw [List.mem_filter]
    refine ⟨?_, ?_⟩
    · rw [← mem_exps_combine]
      exact List.mem_map_of_mem _ homem
    · rw [← coeff_combine, coeff_of_mem hs o homem]
      simpa using ho

/-- C1. Division round trip: for a non-empty `a` and a non-empty `b` with a nonzero
coefficient, `a / b` and `a % b` return, and `b * (a / b) + (a % b)` carries the
coefficient of `a` at every exponent. -/
theorem div_mod_round_trip (a b : List (Term ℚ)) (ha : a ≠ []) (hb : b ≠ [])
    (hnz : ∃ e, coeff b e ≠ 0) :
    ∃ q r, div a b = Except.ok q ∧ mod a b = Except.ok r ∧
      ∀ e, coeff (add (mul b q) r) e = coeff a e := by
  have _ := hb
  obtain ⟨o, rest, h1, h2⟩ := zeroLoop_head_of_coeff b hnz
  obtain ⟨q, r, hq, hr, hsem, _⟩ :=
    div_mod_spec Polynomial.C Polynomial.X a b ha o rest h1 h2
  refine ⟨q, r, hq, hr, fun e => ?_⟩
  rw [coeff_eq_sem, coeff_eq_sem, sem_add, sem_mul, hsem]

/-- The round trip of C1 at `a = x^2`, `b = x - 1`. -/
theorem div_mod_round_trip_witness :
    (([⟨1, 2⟩] : List (Term ℚ)) ≠ [] ∧ ([⟨1, 1⟩, ⟨-1, 0⟩] : List (Term ℚ)) ≠ [] ∧
      ∃ e, coeff ([⟨1, 1⟩, ⟨-1, 0⟩] : List (Term ℚ)) e ≠ 0) ∧
    ∃ q r, div ([⟨1, 2⟩] : List (Term ℚ)) [⟨1, 1⟩, ⟨-1, 0⟩] = Except.ok q ∧
      mod ([⟨1, 2⟩] : List (Term ℚ)) [⟨1, 1⟩, ⟨-1, 0⟩] = Except.ok r ∧
      ∀ e, coeff (add (mul [⟨1, 1⟩, ⟨-1, 0⟩] q) r) e = coeff ([⟨1, 2⟩] : List (Term ℚ)) e :=
  ⟨⟨by simp, by simp, 1, by decide!⟩,
    div_mod_round_trip _ _ (by simp) (by simp) ⟨1, by decide!⟩⟩

/-- C2. Remainder degree bound: for a non-empty `a` and a non-empty `b` with a nonzero
coefficient, `a % b` returns a remainder in which every term with exponent at least
`degree b` has coefficient 0; when the remainder has a nonzero term, its degree is
strictly below `degree b`. -/
theorem mod_degree_lt (a b : List (Term ℚ)) (ha : a ≠ []) (hb : b ≠ [])
    (hnz : ∃ e, coeff b e ≠ 0) :
    ∃ r, mod a b = Except.ok r ∧
      (∀ t ∈ r, degree b ≤ t.exp → t.coef = 0) ∧
      ((∃ t ∈ r, t.coef ≠ 0) → degree r < degree b) := by
  have _ := hb
  obtain ⟨o, rest, h1, h2⟩ := zeroLoop_head_of_coeff b hnz
  obtain ⟨q, r, _, hr, _, hs, _, hz, _⟩ :=
    div_mod_spec Polynomial.C Polynomial.X a b ha o rest h1 h2
  rw [degree_eq_lead b o rest h1 h2]
  refine ⟨r, hr, hz, ?_⟩
  rintro ⟨t, ht, ht0⟩
  unfold degree
  apply foldr_max_lt
  · intro hnil
    have : t.exp ∈ (r.map Term.exp).filter (fun e => coeff r e ≠ 0) := by
      rw [List.mem_filter]
      refine ⟨List.mem_map_of_mem _ ht, ?_⟩
      rw [coeff_of_mem hs t ht]
      simpa using ht0
    rw [hnil] at this
    simp at this
  · intro e he
    rw [List.mem_filter] at he
    have hne : coeff r e ≠ 0 := by simpa using he.2
    obtain ⟨u, hu, hue, hu0⟩ := coeff_ne_zero_mem _ e hne
    by_contra hcon
    exact hu0 (hz u hu (by omega))

/-- The degree bound of C2 at `a = x^2`, `b = x - 1`. -/
theorem mod_degree_lt_witness :
    (([⟨1, 2⟩] : List (Term ℚ)) ≠ [] ∧ ([⟨1, 1⟩, ⟨-1, 0⟩] : List (Term ℚ)) ≠ [] ∧
      ∃ e, coeff ([⟨1, 1⟩, ⟨-1, 0⟩] : List (Term ℚ)) e ≠ 0) ∧
    ∃ r, mod ([⟨1, 2⟩] : List (Term ℚ)) [⟨1, 1⟩, ⟨-1, 0⟩] = Except.ok r ∧
      (∀ t ∈ r, degree ([⟨1, 1⟩, ⟨-1, 0⟩] : List (Term ℚ)) ≤ t.exp → t.coef = 0) ∧
      ((∃ t ∈ r, t.coef ≠ 0) → degree r < degree ([⟨1, 1⟩, ⟨-1, 0⟩] : List (Term ℚ))) :=
  ⟨⟨by simp, by simp, 1, by decide!⟩,
    mod_degree_lt _ _ (by simp) (by simp) ⟨1, by decide!⟩⟩

/-- C3. Degree underflow: for normalized non-empty `a` and `b` such that the leading
exponent of `a` after `zero_remove` is below that of `b` after `zero_remove`, `a / b` is
the single term `0*x^0` and `a % b` is the term list of `a`. -/
theorem degree_underflow (a b : List (Term ℚ)) (hsa : StrictDesc a) (hsb : StrictDesc b)
    (ta tb : Term ℚ) (ra rb : List (Term ℚ))
    (hza : zero_remove a = Except.ok (ta :: ra)) (hzb : zero_remove b = Except.ok (tb :: rb))
    (hlt : ta.exp < tb.exp) :
    div a b = Except.ok [⟨0, 0⟩] ∧ mod a b = Except.ok a := by
  have _ := hsb
  have hoa : ofTerms a = a := combine_eq_self hsa
  obtain ⟨fa, hfa⟩ := fill_ok (ta :: ra)
  obtain ⟨fb, hfb⟩ := fill_ok (tb :: rb)
  have hna : nth (ta :: ra) 0 = Except.ok ta := by simp [nth]
  have hnb : nth (tb :: rb) 0 = Except.ok tb := by simp [nth]
  have hneg : ((ta.exp : Int) - (tb.exp : Int)) < 0 := by omega
  have hzero : (zeroPoly : List (Term ℚ)) = [⟨0, 0⟩] := by
    simp [zeroPoly, ofTerms, combine, sortDesc, mergeFrom]
  constructor
  · simp only [div, hoa, hza, hzb, hna, hnb, hfa, hfb, bind, Except.bind, if_pos hneg, hzero]
  · simp only [mod, hoa, hza, hzb, hna, hnb, hfa, hfb, bind, Except.bind, if_pos hneg]

/-- The underflow case of C3 at `a = 0*x^3 + 2x + 0`, `b = x^2 - 1`. -/
theorem degree_underflow_witness :
    (StrictDesc ([⟨0, 3⟩, ⟨2, 1⟩, ⟨0, 0⟩] : List (Term ℚ)) ∧
      StrictDesc ([⟨1, 2⟩, ⟨-1, 0⟩] : List (Term ℚ)) ∧
      zero_remove ([⟨0, 3⟩, ⟨2, 1⟩, ⟨0, 0⟩] : List (Term ℚ)) = Except.ok [⟨2, 1⟩, ⟨0, 0⟩] ∧
      zero_remove ([⟨1, 2⟩, ⟨-1, 0⟩] : List (Term ℚ)) = Except.ok [⟨1, 2⟩, ⟨-1, 0⟩] ∧
      (1 : Nat) < 2) ∧
    (div ([⟨0, 3⟩, ⟨2, 1⟩, ⟨0, 0⟩] : List (Term ℚ)) [⟨1, 2⟩, ⟨-1, 0⟩] = Except.ok [⟨0, 0⟩] ∧
      mod ([⟨0, 3⟩, ⟨2, 1⟩, ⟨0, 0⟩] : List (Term ℚ)) [⟨1, 2⟩, ⟨-1, 0⟩]
        = Except.ok [⟨0, 3⟩, ⟨2, 1⟩, ⟨0, 0⟩]) :=
  ⟨⟨by decide, by decide, by decide!, by decide!, by decide⟩,
    degree_underflow _ _ (by decide) (by decide) ⟨2, 1⟩ ⟨1, 2⟩ [⟨0, 0⟩] [⟨-1, 0⟩]
      (by decide!) (by decide!) (by decide)⟩

section Generic

variable {K : Type}

theorem zeroPoly_strict [Zero K] [Add K] : StrictDesc (zeroPoly : List (Term K)) := by
  unfold zeroPoly ofTerms
  exact combine_strict _

theorem zeroPoly_ne_nil [Zero K] [Add K] : (zeroPoly : List (Term K)) ≠ [] := by
  simp [zeroPoly, ofTerms, combine_eq_nil]

theorem foldl_addTerm_strict [Add K] {α : Type} (f : α → Term K) (as : List α)
    (r : List (Term K)) (hr : StrictDesc r) :
    StrictDesc (as.foldl (fun r t => addTerm r (f t)) r) := by
  induction as generalizing r with
  | nil => exact hr
  | cons t as ih => exact ih _ (combine_strict _)

theorem foldl_addTerm_ne_nil [Add K] {α : Type} (f : α → Term K) (as : List α)
    (r : List (Term K)) (hr : r ≠ []) :
    as.foldl (fun r t => addTerm r (f t)) r ≠ [] := by
  induction as generalizing r with
  | nil => exact hr
  | cons t as ih => exact ih _ (addTerm_ne_nil _ _)

theorem neg_strict [Zero K] [Add K] [Neg K] (a : List (Term K)) : StrictDesc (neg a) := by
  unfold neg
  exact foldl_addTerm_strict Term.neg a _ zeroPoly_strict

theorem mulT_strict [Zero K] [Add K] [Mul K] (a : List (Term K)) (t : Term K) :
    StrictDesc (mulT a t) := by
  unfold mulT
  exact foldl_addTerm_strict (fun u => u.mul t) a _ zeroPoly_strict

end Generic

/-- C6. Normalization is idempotent: `combine (combine ts)` is the term list
`combine ts`, for every term list over exact coefficients. -/
theorem combine_idempotent (ts : List (Term ℚ)) : combine (combine ts) = combine ts :=
  combine_eq_self (combine_strict ts)

/-- C7. Normalized form of construction and ring operations: construction from a term
list, `addTerm`, unary negation, `a + b`, `a - b`, `a * b`, `a + t` and `a * t` all
return term lists with strictly decreasing exponents, hence without a repeated
exponent. -/
theorem ring_ops_normalized (ts a b : List (Term ℚ)) (t : Term ℚ) :
    NormalForm (ofTerms ts) ∧ NormalForm (addTerm a t) ∧ NormalForm (neg a) ∧
      NormalForm (add a b) ∧ NormalForm (sub a b) ∧ NormalForm (mul a b) ∧
      NormalForm (addT a t) ∧ NormalForm (mulT a t) := by
  have key : ∀ l : List (Term ℚ), StrictDesc l → NormalForm l :=
    fun l h => ⟨h, strictDesc_nodup h⟩
  exact ⟨key _ (combine_strict _), key _ (combine_strict _), key _ (neg_strict a),
    key _ (combine_strict _), key _ (combine_strict _), key _ (combine_strict _),
    key _ (combine_strict _), key _ (mulT_strict a t)⟩

theorem coeff_eq_zero_of_terms (r : List (Term ℚ)) (m : Nat)
    (h : ∀ t ∈ r, t.exp = m → t.coef = 0) : coeff r m = 0 := by
  induction r with
  | nil => simp [coeff]
  | cons t r ih =>
    rw [coeff_cons, ih (fun u hu => h u (List.mem_cons_of_mem _ hu)), add_zero]
    by_cases hte : t.exp = m
    · rw [if_pos hte]
      exact h t (List.mem_cons_self _ _) hte
    · rw [if_neg hte]

theorem nonzero_iff_sem (ts : List (Term ℚ)) :
    (∃ e, coeff ts e ≠ 0) ↔ sem Polynomial.C Polynomial.X ts ≠ 0 := by
  constructor
  · rintro ⟨e, he⟩ h0
    rw [coeff_eq_sem, h0] at he
    simp at he
  · intro h
    by_contra hcon
    apply h
    ext e
    rw [← coeff_eq_sem]
    simp only [Polynomial.coeff_zero]
    by_contra hne
    exact hcon ⟨e, hne⟩

theorem degree_sem_lt (r : List (Term ℚ)) (d : Nat)
    (h : ∀ t ∈ r, d ≤ t.exp → t.coef = 0) :
    (sem Polynomial.C Polynomial.X r).degree < d := by
  rw [Polynomial.degree_lt_iff_coeff_zero]
  intro m hm
  rw [← coeff_eq_sem]
  exact coeff_eq_zero_of_terms r m (fun t ht hte => h t ht (by omega))

theorem le_degree_sem (g : List (Term ℚ)) (o : Term ℚ) (rest : List (Term ℚ))
    (hg : zeroLoop (combine g) = o :: rest) (ho : o.coef ≠ 0) :
    (o.exp : WithBot ℕ) ≤ (sem Polynomial.C Polynomial.X g).degree := by
  apply Polynomial.le_degree_of_ne_zero
  have homem : o ∈ combine g :=
    (zeroLoop_sublist (combine g)).subset (hg ▸ List.mem_cons_self _ _)
  rw [← coeff_eq_sem, ← coeff_combine, coeff_of_mem (combine_strict g) o homem]
  exact ho

theorem coefs_zero_of_sem_zero (r : List (Term ℚ)) (hs : StrictDesc r)
    (h : sem Polynomial.C Polynomial.X r = 0) : ∀ t ∈ r, t.coef = 0 := by
  intro t ht
  rw [← coeff_of_mem hs t ht, coeff_eq_sem, h]
  simp

/-- When the divisor divides the dividend as polynomials, `operator%` returns a remainder
all of whose coefficients are 0. -/
theorem mod_zero_of_dvd (a g : List (Term ℚ)) (ha : a ≠ [])
    (hg : sem Polynomial.C Polynomial.X g ≠ 0)
    (hdvd : sem Polynomial.C Polynomial.X g ∣ sem Polynomial.C Polynomial.X a) :
    ∃ q r, div a g = Except.ok q ∧ mod a g = Except.ok r ∧ (∀ t ∈ r, t.coef = 0) ∧
      sem Polynomial.C Polynomial.X g * sem Polynomial.C Polynomial.X q
        = sem Polynomial.C Polynomial.X a := by
  obtain ⟨o, rest, h1, h2⟩ := zeroLoop_head_of_coeff g ((nonzero_iff_sem g).2 hg)
  obtain ⟨q, r, hq, hr, hsem, hs, _, hz, _⟩ :=
    div_mod_spec Polynomial.C Polynomial.X a g ha o rest h1 h2
  have hlt : (sem Polynomial.C Polynomial.X r).degree < (sem Polynomial.C Polynomial.X g).degree :=
    lt_of_lt_of_le (degree_sem_lt r o.exp hz) (le_degree_sem g o rest h1 h2)
  have hdr : sem Polynomial.C Polynomial.X g ∣ sem Polynomial.C Polynomial.X r := by
    have : sem Polynomial.C Polynomial.X r = sem Polynomial.C Polynomial.X a
        - sem Polynomial.C Polynomial.X g * sem Polynomial.C Polynomial.X q := by
      rw [← hsem]; ring
    rw [this]
    exact dvd_sub hdvd (dvd_mul_right _ _)
  have hr0 := Polynomial.eq_zero_of_dvd_of_degree_lt hdr hlt
  refine ⟨q, r, hq, hr, coefs_zero_of_sem_zero r hs hr0, ?_⟩
  rw [← hsem, hr0, add_zero]

theorem dense_getLast {M : Nat} {r : List (Term ℚ)} (h : Dense M r) (hne : r ≠ []) :
    (r.getLast hne).exp = 0 := by
  have hlen := dense_length h
  obtain ⟨t, ht, hte⟩ := dense_getElem? h M (le_refl _)
  have : r.getLast hne = t := by
    rw [List.getLast_eq_getElem]
    have hidx : r.length - 1 = M := by omega
    have hM : M < r.length := by omega
    rw [List.getElem?_eq_getElem hM] at ht
    simp only [hidx]
    exact Option.some.inj ht
  rw [this, hte]
  omega

theorem sem_ne_zero_ne_nil {R : Type} [CommRing R] (ι : ℚ →+* R) (x : R) (l : List (Term ℚ))
    (h : sem ι x l ≠ 0) : l ≠ [] := by
  rintro rfl
  exact h rfl

theorem gcdLoop_spec (N : Nat) :
    ∀ (copy c : List (Term ℚ)) (h : Term ℚ) (t : List (Term ℚ)), c = h :: t →
      sem Polynomial.C Polynomial.X copy ≠ 0 →
      (h.exp ≠ 0 → sem Polynomial.C Polynomial.X c ≠ 0) →
      (h.exp = 0 → h.coef = 0 → sem Polynomial.C Polynomial.X c = 0) →
      (h.exp ≠ 0 → ∀ o rest, zeroLoop (combine c) = o :: rest → o.exp < N) →
      ∃ n, ∀ fuel, n ≤ fuel → ∃ copy' c' h' t',
        gcdLoop fuel copy c = Except.ok (copy', c') ∧ c' = h' :: t' ∧ h'.exp = 0 ∧
        sem Polynomial.C Polynomial.X copy' ≠ 0 ∧
        (h'.coef = 0 → sem Polynomial.C Polynomial.X c' = 0) ∧
        (∀ G, G ∣ sem Polynomial.C Polynomial.X copy' → G ∣ sem Polynomial.C Polynomial.X c' →
          G ∣ sem Polynomial.C Polynomial.X copy ∧ G ∣ sem Polynomial.C Polynomial.X c) := by
  induction N with
  | zero =>
    intro copy c h t hc hcopy hgood1 hgood2 hmeas
    by_cases hexp : h.exp = 0
    · refine ⟨1, fun fuel hfuel => ?_⟩
      obtain ⟨f, rfl⟩ : ∃ f, fuel = f + 1 := ⟨fuel - 1, by omega⟩
      refine ⟨copy, c, h, t, ?_, hc, hexp, hcopy, hgood2 hexp, fun G h1 h2 => ⟨h1, h2⟩⟩
      subst hc
      simp [gcdLoop, nth, bind, Except.bind, hexp]
    · exfalso
      obtain ⟨o, rest, h1, _⟩ := zeroLoop_head_of_coeff c ((nonzero_iff_sem c).2 (hgood1 hexp))
      exact Nat.not_lt_zero _ (hmeas hexp o rest h1)
  | succ N ih =>
    intro copy c h t hc hcopy hgood1 hgood2 hmeas
    by_cases hexp : h.exp = 0
    · refine ⟨1, fun fuel hfuel => ?_⟩
      obtain ⟨f, rfl⟩ : ∃ f, fuel = f + 1 := ⟨fuel - 1, by omega⟩
      refine ⟨copy, c, h, t, ?_, hc, hexp, hcopy, hgood2 hexp, fun G h1 h2 => ⟨h1, h2⟩⟩
      subst hc
      simp [gcdLoop, nth, bind, Except.bind, hexp]
    · obtain ⟨o, rest, ho, ho0⟩ :=
        zeroLoop_head_of_coeff c ((nonzero_iff_sem c).2 (hgood1 hexp))
      have hoN := hmeas hexp o rest ho
      have hcopyne := sem_ne_zero_ne_nil _ _ copy hcopy
      have hcne : c ≠ [] := by rw [hc]; simp
      obtain ⟨q, r, _, hr, hsem, hs, _, hz, hdisj⟩ :=
        div_mod_spec Polynomial.C Polynomial.X copy c hcopyne o rest ho ho0
      have hrne : r ≠ [] := by
        rcases hdisj with ⟨h1, _⟩ | ⟨M, hM⟩
        · rw [h1]
          exact fun hnil => hcopyne ((combine_eq_nil copy).1 hnil)
        · intro hnil
          have := dense_length hM
          rw [hnil] at this
          simp at this
      have hzc : zero_remove c = Except.ok (o :: rest) := by rw [zero_remove_eq c hcne, ho]
      have hzr : zero_remove r = Except.ok (zeroLoop r) := by
        rw [zero_remove_eq r hrne, combine_eq_self hs]
      obtain ⟨h', t', hc'⟩ := List.exists_cons_of_ne_nil (zeroLoop_ne_nil r hrne)
      have hsc' : StrictDesc (h' :: t') := hc' ▸ hs.sublist (zeroLoop_sublist r)
      have hsemc' : sem Polynomial.C Polynomial.X (h' :: t') = sem Polynomial.C Polynomial.X r := by
        rw [← hc', sem_zeroLoop]
      have hsemo : sem Polynomial.C Polynomial.X (o :: rest) = sem Polynomial.C Polynomial.X c := by
        rw [← ho, sem_zeroLoop, sem_combine]
      have g1 : h'.exp ≠ 0 → sem Polynomial.C Polynomial.X (h' :: t') ≠ 0 := by
        intro hne h0
        rw [hsemc'] at h0
        have hall := coefs_zero_of_sem_zero r hs h0
        have hlast := zeroLoop_all_zero r hrne hall
        rw [hc'] at hlast
        have hh : h' = r.getLast hrne := (List.cons.inj hlast).1
        rcases hdisj with ⟨h1, _⟩ | ⟨M, hM⟩
        · rw [h1, sem_combine] at h0
          exact hcopy h0
        · exact hne (hh ▸ dense_getLast hM hrne)
      have g2 : h'.exp = 0 → h'.coef = 0 → sem Polynomial.C Polynomial.X (h' :: t') = 0 := by
        intro he hco
        have ht' : t' = [] := by
          cases t' with
          | nil => rfl
          | cons u us =>
            have := (List.pairwise_cons.1 hsc').1 u (List.mem_cons_self _ _)
            omega
        rw [ht', sem_cons, hco]
        simp
      have g3 : h'.exp ≠ 0 → ∀ o' rest', zeroLoop (combine (h' :: t')) = o' :: rest' →
          o'.exp < N := by
        intro hne o' rest' ho'
        obtain ⟨o'', rest'', h1, h2⟩ :=
          zeroLoop_head_of_coeff (h' :: t') ((nonzero_iff_sem _).2 (g1 hne))
        rw [ho'] at h1
        have hoo : o' = o'' := (List.cons.inj h1).1
        subst hoo
        have hmem : o' ∈ r := by
          have m1 : o' ∈ zeroLoop (combine (h' :: t')) := ho' ▸ List.mem_cons_self _ _
          rw [combine_eq_self hsc'] at m1
          have m2 := (zeroLoop_sublist _).subset m1
          rw [← hc'] at m2
          exact (zeroLoop_sublist _).subset m2
        have : ¬ o.exp ≤ o'.exp := fun hle => h2 (hz o' hmem hle)
        omega
      have hcopy' : sem Polynomial.C Polynomial.X (o :: rest) ≠ 0 := by
        rw [hsemo]
        exact hgood1 hexp
      obtain ⟨n, hn⟩ := ih (o :: rest) (h' :: t') h' t' rfl hcopy' g1 g2 g3
      refine ⟨n + 1, fun fuel hfuel => ?_⟩
      obtain ⟨f, rfl⟩ : ∃ f, fuel = f + 1 := ⟨fuel - 1, by omega⟩
      obtain ⟨copy'', c'', h'', t'', k1, k2, k3, k4, k5, k6⟩ := hn f (by omega)
      refine ⟨copy'', c'', h'', t'', ?_, k2, k3, k4, k5, ?_⟩
      · subst hc
        rw [gcdLoop]
        simp only [nth, List.getElem?_cons_zero, bind, Except.bind, hexp, ne_eq,
          not_false_eq_true, if_true, hr, hzc, hzr, hc']
        exact k1
      · intro G d1 d2
        obtain ⟨e1, e2⟩ := k6 G d1 d2
        rw [hsemo] at e1
        rw [hsemc'] at e2
        refine ⟨?_, e1⟩
        rw [← hsem]
        exact dvd_add (dvd_mul_of_dvd_left e1 _) e2

theorem gcd_spec (a b : List (Term ℚ)) (ha : sem Polynomial.C Polynomial.X a ≠ 0)
    (b0 : Term ℚ) (rest : List (Term ℚ)) (hb : b = b0 :: rest) (hb0 : b0.coef ≠ 0)
    (hbnz : sem Polynomial.C Polynomial.X b ≠ 0) :
    ∃ n, ∀ fuel, n ≤ fuel → ∃ g, gcd fuel a b = Except.ok g ∧
      sem Polynomial.C Polynomial.X g ≠ 0 ∧
      sem Polynomial.C Polynomial.X g ∣ sem Polynomial.C Polynomial.X a ∧
      sem Polynomial.C Polynomial.X g ∣ sem Polynomial.C Polynomial.X b := by
  obtain ⟨o, orest, ho, _⟩ := zeroLoop_head_of_coeff b ((nonzero_iff_sem b).2 hbnz)
  obtain ⟨n, hn⟩ := gcdLoop_spec (o.exp + 1) (ofTerms a) b b0 rest hb
    (by rw [sem_ofTerms]; exact ha) (fun _ => hbnz) (fun _ h0 => absurd h0 hb0)
    (fun _ o' rest' ho' => by
      rw [ho] at ho'
      rw [← (List.cons.inj ho').1]
      exact Nat.lt_succ_self _)
  refine ⟨n, fun fuel hfuel => ?_⟩
  obtain ⟨copy', c', h', t', k1, k2, k3, k4, k5, k6⟩ := hn fuel hfuel
  have hn1 : nth c' 0 = Except.ok h' := by rw [k2]; simp [nth]
  have hn2 : nth b 0 = Except.ok b0 := by rw [hb]; simp [nth]
  by_cases hco : h'.coef = 0
  · refine ⟨mulT copy' ⟨1 / b0.coef, 0⟩, ?_, ?_, ?_⟩
    · simp only [gcd, k1, hn1, hn2, bind, Except.bind, hco, ne_eq, not_true_eq_false,
        if_false, hb0]
    · rw [sem_mulT]
      simp only [pow_zero, mul_one]
      exact mul_ne_zero k4 (by simpa using hb0)
    · have hdvd : sem Polynomial.C Polynomial.X (mulT copy' ⟨1 / b0.coef, 0⟩) ∣
          sem Polynomial.C Polynomial.X copy' := by
        rw [sem_mulT]
        simp only [pow_zero, mul_one]
        refine ⟨Polynomial.C b0.coef, ?_⟩
        rw [mul_assoc, ← Polynomial.C_mul, one_div, inv_mul_cancel₀ hb0]
        simp
      have := k6 _ hdvd (by rw [k5 hco]; exact dvd_zero _)
      rw [sem_ofTerms] at this
      exact this
  · refine ⟨ofTerm ⟨1, 0⟩, ?_, ?_, ?_⟩
    · simp only [gcd, k1, hn1, bind, Except.bind, hco, ne_eq, not_false_eq_true, if_true]
    · simp [ofTerm]
    · simp [ofTerm]

theorem coeff_head_strict (b0 : Term ℚ) (rest : List (Term ℚ)) (hs : StrictDesc (b0 :: rest))
    (hb0 : b0.coef ≠ 0) : ∃ e, coeff (b0 :: rest) e ≠ 0 :=
  ⟨b0.exp, by rw [coeff_of_mem hs b0 (List.mem_cons_self _ _)]; exact hb0⟩

theorem mul_ne_nil {K : Type} [Zero K] [Add K] [Mul K] (a b : List (Term K)) :
    mul a b ≠ [] := by
  unfold mul
  intro h
  rw [combine_eq_nil] at h
  have key : ∀ (as r : List (Term K)), r ≠ [] →
      as.foldl (fun r t => b.foldl (fun r u => addTerm r (t.mul u)) r) r ≠ [] := by
    intro as
    induction as with
    | nil => exact fun r hr => hr
    | cons t as ih =>
      intro r hr
      exact ih _ (foldl_addTerm_ne_nil (fun u => t.mul u) b r hr)
  exact key a _ zeroPoly_ne_nil h

theorem gcd_ofTerms (fuel : Nat) (a b : List (Term ℚ)) :
    gcd fuel (ofTerms a) b = gcd fuel a b := by
  simp only [gcd, ofTerms, combine_idem]

/-- The hypotheses on the second operand of `gcd`: a normalized list whose first
coefficient is nonzero has a nonzero coefficient. -/
theorem nonzero_of_head (b : List (Term ℚ)) (b0 : Term ℚ) (rest : List (Term ℚ))
    (hb : b = b0 :: rest) (hb0 : b0.coef ≠ 0)
    (hbnz : StrictDesc b ∨ ∃ e, coeff b e ≠ 0) : ∃ e, coeff b e ≠ 0 := by
  rcases hbnz with hs | h
  · subst hb
    exact coeff_head_strict b0 rest hs hb0
  · exact h

/-- C4. GCD is a common divisor: for `a` with a nonzero coefficient and `b` whose first
term has a nonzero coefficient (`b` normalized, or more generally with a nonzero
coefficient at some exponent), the loop of `gcd a b` ends and returns `g` such that
`a % g` and `b % g` return remainders all of whose coefficients are 0; and
`gcd (x^2 - 1) (x - 1)` is `x - 1`. -/
theorem gcd_common_divisor :
    (∀ (a b : List (Term ℚ)) (b0 : Term ℚ) (rest : List (Term ℚ)),
      (∃ e, coeff a e ≠ 0) → b = b0 :: rest → b0.coef ≠ 0 →
      (StrictDesc b ∨ ∃ e, coeff b e ≠ 0) →
      ∃ n, ∀ fuel, n ≤ fuel → ∃ g ra rb, gcd fuel a b = Except.ok g ∧
        mod a g = Except.ok ra ∧ mod b g = Except.ok rb ∧
        (∀ t ∈ ra, t.coef = 0) ∧ (∀ t ∈ rb, t.coef = 0)) ∧
    gcd 2 ([⟨1, 2⟩, ⟨-1, 0⟩] : List (Term ℚ)) [⟨1, 1⟩, ⟨-1, 0⟩]
      = Except.ok [⟨1, 1⟩, ⟨-1, 0⟩] := by
  refine ⟨?_, by decide!⟩
  intro a b b0 rest ha hb hb0 hbnz
  have hbnz' := nonzero_of_head b b0 rest hb hb0 hbnz
  have hPa := (nonzero_iff_sem a).1 ha
  have hPb := (nonzero_iff_sem b).1 hbnz'
  obtain ⟨n, hn⟩ := gcd_spec a b hPa b0 rest hb hb0 hPb
  refine ⟨n, fun fuel hfuel => ?_⟩
  obtain ⟨g, hg, hg0, hga, hgb⟩ := hn fuel hfuel
  obtain ⟨_, ra, _, hra, hra0, _⟩ := mod_zero_of_dvd a g (sem_ne_zero_ne_nil _ _ a hPa) hg0 hga
  obtain ⟨_, rb, _, hrb, hrb0, _⟩ := mod_zero_of_dvd b g (sem_ne_zero_ne_nil _ _ b hPb) hg0 hgb
  exact ⟨g, ra, rb, hg, hra, hrb, hra0, hrb0⟩

/-- The common-divisor property of C4 at `a = x^3 - x`, `b = 2x^2 - 2`. -/
theorem gcd_common_divisor_witness :
    ((∃ e, coeff ([⟨1, 3⟩, ⟨-1, 1⟩] : List (Term ℚ)) e ≠ 0) ∧
      (⟨2, 2⟩ : Term ℚ).coef ≠ 0 ∧ StrictDesc ([⟨2, 2⟩, ⟨-2, 0⟩] : List (Term ℚ))) ∧
    ∃ n, ∀ fuel, n ≤ fuel → ∃ g ra rb,
      gcd fuel ([⟨1, 3⟩, ⟨-1, 1⟩] : List (Term ℚ)) [⟨2, 2⟩, ⟨-2, 0⟩] = Except.ok g ∧
      mod ([⟨1, 3⟩, ⟨-1, 1⟩] : List (Term ℚ)) g = Except.ok ra ∧
      mod ([⟨2, 2⟩, ⟨-2, 0⟩] : List (Term ℚ)) g = Except.ok rb ∧
      (∀ t ∈ ra, t.coef = 0) ∧ (∀ t ∈ rb, t.coef = 0) :=
  ⟨⟨⟨3, by decide!⟩, by decide!, by decide⟩,
    gcd_common_divisor.1 [⟨1, 3⟩, ⟨-1, 1⟩] [⟨2, 2⟩, ⟨-2, 0⟩] ⟨2, 2⟩ [⟨-2, 0⟩]
      ⟨3, by decide!⟩ rfl (by decide!) (Or.inl (by decide))⟩

/-- C5: the code at the failing input. `a = x` and `b = 0*x^2 + x` are normalized and each
has a nonzero coefficient. The loop of `gcd a b` ends with `copy = x` and the zero constant;
the last line then scales by `1 / other.terms[0].coef`, read from `b` as passed in, whose
first coefficient is 0 (`zero_remove b` has first coefficient 1). So `gcd a b` is
`inf*x + 0` and `lcm a b` is `0*x + 0`; their product carries NaN at exponent 2, where
`a * b` carries 1. -/
theorem gcd_scaled_by_raw_head :
    StrictDesc ([⟨1, 1⟩] : List (Term Coef)) ∧
      StrictDesc ([⟨0, 2⟩, ⟨1, 1⟩] : List (Term Coef)) ∧
      coeff ([⟨1, 1⟩] : List (Term Coef)) 1 ≠ 0 ∧
      coeff ([⟨0, 2⟩, ⟨1, 1⟩] : List (Term Coef)) 1 ≠ 0 ∧
      nth ([⟨0, 2⟩, ⟨1, 1⟩] : List (Term Coef)) 0 = Except.ok ⟨0, 2⟩ ∧
      zero_remove ([⟨0, 2⟩, ⟨1, 1⟩] : List (Term Coef)) = Except.ok [⟨1, 1⟩] ∧
      (∀ fuel, 2 ≤ fuel →
        gcd fuel ([⟨1, 1⟩] : List (Term Coef)) [⟨0, 2⟩, ⟨1, 1⟩]
          = Except.ok [⟨Coef.pinf, 1⟩, ⟨0, 0⟩] ∧
        lcm fuel ([⟨1, 1⟩] : List (Term Coef)) [⟨0, 2⟩, ⟨1, 1⟩]
          = Except.ok [⟨0, 1⟩, ⟨0, 0⟩]) ∧
      mul ([⟨Coef.pinf, 1⟩, ⟨0, 0⟩] : List (Term Coef)) [⟨0, 1⟩, ⟨0, 0⟩]
        = [⟨Coef.nan, 2⟩, ⟨Coef.nan, 1⟩, ⟨0, 0⟩] ∧
      mul ([⟨1, 1⟩] : List (Term Coef)) [⟨0, 2⟩, ⟨1, 1⟩] = [⟨0, 3⟩, ⟨1, 2⟩, ⟨0, 0⟩] ∧
      ¬ ∃ c : ℚ, c ≠ 0 ∧ ∀ e,
        coeff (mul ([⟨Coef.pinf, 1⟩, ⟨0, 0⟩] : List (Term Coef)) [⟨0, 1⟩, ⟨0, 0⟩]) e
          = Coef.num c * coeff (mul ([⟨1, 1⟩] : List (Term Coef)) [⟨0, 2⟩, ⟨1, 1⟩]) e := by
  have h1 : mod (ofTerms ([⟨1, 1⟩] : List (Term Coef))) [⟨0, 2⟩, ⟨1, 1⟩]
      = Except.ok [⟨0, 1⟩, ⟨0, 0⟩] := by decide!
  have h2 : zero_remove ([⟨0, 2⟩, ⟨1, 1⟩] : List (Term Coef)) = Except.ok [⟨1, 1⟩] := by
    decide!
  have h3 : zero_remove ([⟨0, 1⟩, ⟨0, 0⟩] : List (Term Coef)) = Except.ok [⟨0, 0⟩] := by
    decide!
  have hloop : ∀ f, gcdLoop (f + 2) (ofTerms ([⟨1, 1⟩] : List (Term Coef))) [⟨0, 2⟩, ⟨1, 1⟩]
      = Except.ok ([⟨1, 1⟩], [⟨0, 0⟩]) := by
    intro f
    simp [gcdLoop, nth, bind, Except.bind, h1, h2, h3]
  have hscale : mulT ([⟨1, 1⟩] : List (Term Coef)) ⟨1 / (0 : Coef), 0⟩
      = [⟨Coef.pinf, 1⟩, ⟨0, 0⟩] := by decide!
  have hg : ∀ f, gcd (f + 2) ([⟨1, 1⟩] : List (Term Coef)) [⟨0, 2⟩, ⟨1, 1⟩]
      = Except.ok [⟨Coef.pinf, 1⟩, ⟨0, 0⟩] := by
    intro f
    rw [gcd, hloop f]
    simp only [nth, bind, Except.bind, List.getElem?_cons_zero, ne_eq, not_true_eq_false,
      if_false]
    exact congrArg Except.ok hscale
  have hof : ofTerms ([⟨1, 1⟩] : List (Term Coef)) = [⟨1, 1⟩] := by decide!
  have hdiv : div (mul ([⟨0, 2⟩, ⟨1, 1⟩] : List (Term Coef)) [⟨1, 1⟩])
      [⟨Coef.pinf, 1⟩, ⟨0, 0⟩] = Except.ok [⟨0, 1⟩, ⟨0, 0⟩] := by decide!
  have hgl : mul ([⟨Coef.pinf, 1⟩, ⟨0, 0⟩] : List (Term Coef)) [⟨0, 1⟩, ⟨0, 0⟩]
      = [⟨Coef.nan, 2⟩, ⟨Coef.nan, 1⟩, ⟨0, 0⟩] := by decide!
  have hab : mul ([⟨1, 1⟩] : List (Term Coef)) [⟨0, 2⟩, ⟨1, 1⟩]
      = [⟨0, 3⟩, ⟨1, 2⟩, ⟨0, 0⟩] := by decide!
  refine ⟨by decide, by decide, by decide!, by decide!, by decide!, h2, ?_, hgl, hab, ?_⟩
  · intro fuel hfuel
    obtain ⟨f, rfl⟩ : ∃ f, fuel = f + 2 := ⟨fuel - 2, by omega⟩
    refine ⟨hg f, ?_⟩
    rw [lcm, hof, hg f]
    exact hdiv
  · rintro ⟨c, _, hc⟩
    have h := hc 2
    rw [hgl, hab] at h
    have hl : coeff ([⟨Coef.nan, 2⟩, ⟨Coef.nan, 1⟩, ⟨0, 0⟩] : List (Term Coef)) 2
        = Coef.nan := by decide!
    have hr : coeff ([⟨0, 3⟩, ⟨1, 2⟩, ⟨0, 0⟩] : List (Term Coef)) 2 = Coef.num 1 := by
      decide!
    rw [hl, hr] at h
    exact Coef.noConfusion h

/-- The GCD/LCM identity where the scaling of `gcd` divides by a nonzero number: for `a`
with a nonzero coefficient and `b` whose first term has a nonzero coefficient (`b`
normalized, or with a nonzero coefficient at some exponent), `gcd a b` and `lcm a b` return,
and `gcd(a, b) * lcm(a, b)` carries at every exponent the coefficient of `a * b`. -/
theorem gcd_mul_lcm (a b : List (Term ℚ)) (b0 : Term ℚ) (rest : List (Term ℚ))
    (ha : ∃ e, coeff a e ≠ 0) (hb : b = b0 :: rest) (hb0 : b0.coef ≠ 0)
    (hbnz : StrictDesc b ∨ ∃ e, coeff b e ≠ 0) :
    ∃ n, ∀ fuel, n ≤ fuel → ∃ g l, gcd fuel a b = Except.ok g ∧
      lcm fuel a b = Except.ok l ∧
      ∃ c : ℚ, c ≠ 0 ∧ ∀ e, coeff (mul g l) e = c * coeff (mul a b) e := by
  have hbnz' := nonzero_of_head b b0 rest hb hb0 hbnz
  have hPa := (nonzero_iff_sem a).1 ha
  have hPb := (nonzero_iff_sem b).1 hbnz'
  obtain ⟨n, hn⟩ := gcd_spec a b hPa b0 rest hb hb0 hPb
  refine ⟨n, fun fuel hfuel => ?_⟩
  obtain ⟨g, hg, hg0, hga, _⟩ := hn fuel hfuel
  have hdvd : sem Polynomial.C Polynomial.X g ∣
      sem Polynomial.C Polynomial.X (mul b (ofTerms a)) := by
    rw [sem_mul, sem_ofTerms]
    exact dvd_mul_of_dvd_right hga _
  obtain ⟨l, _, hl, _, _, hsem⟩ := mod_zero_of_dvd (mul b (ofTerms a)) g (mul_ne_nil _ _) hg0 hdvd
  refine ⟨g, l, hg, ?_, 1, one_ne_zero, fun e => ?_⟩
  · simp only [lcm, gcd_ofTerms, hg, bind, Except.bind]
    exact hl
  · rw [one_mul, coeff_eq_sem, coeff_eq_sem, sem_mul, sem_mul, hsem, sem_mul, sem_ofTerms,
      mul_comm]

/-- C8: the code at the failing input. The constructor applied to the empty term vector
stores it and `combine` leaves it empty: a polynomial with no term (the default argument
of the same constructor is the one-term vector). The operators `/` and `%` then read
`terms[0]` of the empty vector. -/
theorem construct_from_empty_list :
    ofTerms ([] : List (Term ℚ)) = [] ∧
      (ofTerms ([] : List (Term ℚ))).length = 0 ∧
      (zeroPoly : List (Term ℚ)) = [⟨0, 0⟩] ∧
      div (ofTerms ([] : List (Term ℚ))) [⟨1, 0⟩] = Except.error Fault.outOfRange ∧
      mod (ofTerms ([] : List (Term ℚ))) [⟨1, 0⟩] = Except.error Fault.outOfRange ∧
      ¬ ∀ ts : List (Term ℚ), 1 ≤ (ofTerms ts).length :=
  ⟨rfl, rfl, by decide!, by decide!, by decide!, fun h => absurd (h []) (by decide)⟩

theorem succ_mod_uintRange (e : Nat) (h : e < 4294967295) : (e + 1) % uintRange = e + 1 :=
  Nat.mod_eq_of_lt (by unfold uintRange; omega)

theorem Coef.eq_num_of_isNum (c : Coef) (h : c.isNum = true) : ∃ q, c = Coef.num q := by
  cases c with
  | num q => exact ⟨q, rfl⟩
  | pinf => exact absurd h (by decide)
  | ninf => exact absurd h (by decide)
  | nan => exact absurd h (by decide)

/-- The term left by shifting a numeric term up, then down, by one, when the exponent
increment does not wrap: the zero constant term comes back with the NaN coefficient, any
other term comes back unchanged. -/
theorem shr_shl_one (t : Term Coef) (hnum : t.coef.isNum = true) (hexp : t.exp < 4294967295) :
    (t.shl 1).shr 1 = ⟨if t.coef = 0 ∧ t.exp = 0 then Coef.nan else t.coef, t.exp⟩ := by
  obtain ⟨c, e⟩ := t
  obtain ⟨q, rfl⟩ := Coef.eq_num_of_isNum c hnum
  have hmod := succ_mod_uintRange e hexp
  have hcast : ((e + 1 : ℕ) : ℚ) ≠ 0 := by positivity
  by_cases h0 : (Coef.num q = 0 ∧ e = 0)
  · simp only [Term.shl, Term.shr, Term.shlLoop, Term.shrLoop, hmod, h0, and_self, if_true]
    rfl
  · simp only [Term.shl, Term.shr, Term.shlLoop, Term.shrLoop, hmod, h0, if_false,
      Nat.add_one_ne_zero, Nat.add_sub_cancel]
    congr 1
    show Coef.mul (Coef.div (Coef.num q) (Coef.num ((e + 1 : ℕ) : ℚ)))
      (Coef.num ((e + 1 : ℕ) : ℚ)) = _
    simp only [Coef.div, if_neg hcast, Coef.mul]
    congr 1
    field_simp

theorem shl_one_exp (t : Term Coef) (hexp : t.exp < 4294967295) :
    (t.shl 1).exp = t.exp + 1 := by
  simp only [Term.shl, Term.shlLoop, succ_mod_uintRange t.exp hexp]

theorem coeff_cons_gen {K : Type} [Zero K] [Add K] (t : Term K) (ts : List (Term K))
    (e : Nat) : coeff (t :: ts) e = if t.exp = e then t.coef + coeff ts e else coeff ts e := by
  unfold coeff
  by_cases h : t.exp = e
  · simp [List.filter_cons, h]
  · simp [List.filter_cons, h]

theorem integral_eq (p : List (Term Coef)) (hs : StrictDesc p)
    (hexp : ∀ t ∈ p, t.exp < 4294967295) :
    StrictDesc (p.map (fun t => t.shl 1)) ∧
      integral p = Except.ok (p.map (fun t => t.shl 1) ++ [⟨Coef.nan, 0⟩]) := by
  have hm : StrictDesc (p.map (fun t => t.shl 1)) := by
    apply List.pairwise_map.2
    refine (List.pairwise_iff_forall_sublist.2 ?_)
    intro a b hab
    have hab' := List.pairwise_iff_forall_sublist.1 hs hab
    have ha := hab.subset (List.mem_cons_self _ _)
    have hb := hab.subset (List.mem_cons_of_mem _ (List.mem_singleton_self _))
    rw [shl_one_exp a (hexp a ha), shl_one_exp b (hexp b hb)]
    omega
  refine ⟨hm, ?_⟩
  have happ : StrictDesc (p.map (fun t => t.shl 1) ++ [(⟨Coef.nan, 0⟩ : Term Coef)]) := by
    apply List.pairwise_append.2
    refine ⟨hm, List.pairwise_singleton _ _, ?_⟩
    intro a ha b hb
    obtain ⟨t, ht, rfl⟩ := List.mem_map.1 ha
    rw [List.mem_singleton] at hb
    subst hb
    rw [shl_one_exp t (hexp t ht)]
    exact Nat.succ_pos _
  have hof : ofTerms p = p := combine_eq_self hs
  simp only [integral, shl, hof, le_refl, if_true, List.take_length, List.drop_length,
    List.append_nil, addTerm]
  exact congrArg Except.ok (combine_eq_self happ)

theorem stripConstant_integral (p : List (Term Coef)) (hexp : ∀ t ∈ p, t.exp < 4294967295) :
    stripConstant (p.map (fun t => t.shl 1) ++ [(⟨Coef.nan, 0⟩ : Term Coef)])
      = p.map (fun t => t.shl 1) := by
  unfold stripConstant
  rw [List.filter_append]
  have h1 : (p.map (fun t => t.shl 1)).filter
      (fun t => decide (¬ (t.coef = HasNaN.nan ∧ t.exp = 0))) = p.map (fun t => t.shl 1) := by
    apply List.filter_eq_self.2
    intro a ha
    obtain ⟨t, ht, rfl⟩ := List.mem_map.1 ha
    simp [shl_one_exp t (hexp t ht)]
  rw [h1]
  have h2 : ([(⟨Coef.nan, 0⟩ : Term Coef)]).filter
      (fun t => decide (¬ (t.coef = HasNaN.nan ∧ t.exp = 0))) = [] := by
    decide
  rw [h2, List.append_nil]

theorem coeff_shr_shl (p : List (Term Coef)) (hs : StrictDesc p)
    (hnum : ∀ t ∈ p, t.coef.isNum = true) (hexp : ∀ t ∈ p, t.exp < 4294967295) (e : Nat) :
    coeff (p.map (fun t => (t.shl 1).shr 1)) e
      = if e = 0 ∧ (⟨0, 0⟩ : Term Coef) ∈ p then Coef.nan else coeff p e := by
  induction p with
  | nil => simp [coeff]
  | cons t ts ih =>
    have hs' := List.pairwise_cons.1 hs
    have iht := ih hs'.2 (fun u hu => hnum u (List.mem_cons_of_mem _ hu))
      (fun u hu => hexp u (List.mem_cons_of_mem _ hu))
    rw [List.map_cons, shr_shl_one t (hnum t (List.mem_cons_self _ _))
      (hexp t (List.mem_cons_self _ _))]
    by_cases h0 : t.coef = 0 ∧ t.exp = 0
    · have hts : ts = [] := by
        cases ts with
        | nil => rfl
        | cons u us =>
          have := hs'.1 u (List.mem_cons_self _ _)
          omega
      subst hts
      have ht : t = ⟨0, 0⟩ := by
        cases t
        simp only at h0
        rw [h0.1, h0.2]
      subst ht
      by_cases he : e = 0
      · subst he
        simp [coeff_cons_gen, coeff]
        rfl
      · have he' : ¬ 0 = e := fun h => he h.symm
        simp [coeff_cons_gen, coeff, he, he']
    · rw [if_neg h0]
      have hmem : ((⟨0, 0⟩ : Term Coef) ∈ t :: ts) ↔ (⟨0, 0⟩ : Term Coef) ∈ ts := by
        rw [List.mem_cons]
        constructor
        · rintro (h | h)
          · exfalso
            apply h0
            rw [← h]
            exact ⟨rfl, rfl⟩
          · exact h
        · exact Or.inr
      have hR : (e = 0 ∧ (⟨0, 0⟩ : Term Coef) ∈ t :: ts) ↔
          (e = 0 ∧ (⟨0, 0⟩ : Term Coef) ∈ ts) := and_congr_right (fun _ => hmem)
      rw [coeff_cons_gen (⟨t.coef, t.exp⟩ : Term Coef), iht]
      by_cases hc : e = 0 ∧ (⟨0, 0⟩ : Term Coef) ∈ ts
      · have hpos := hs'.1 _ hc.2
        have hte : ¬ t.exp = e := by
          simp only at hpos
          omega
        simp only [if_pos hc, if_pos (hR.2 hc), if_neg hte]
      · simp only [if_neg hc, if_neg (fun h => hc (hR.1 h))]
        rw [coeff_cons_gen t]

/-- C10, as stated, fails. For the zero polynomial `0*x^0` (normalized, numeric) the
integral is `NaN*x + NaN`; after the constant term is stripped and the derivative taken,
the coefficient at exponent 0 is NaN, not 0. For `x^4294967295` the exponent increment
wraps to 0 and the coefficient is divided by 0: the integral is the single term `NaN*x^0`,
and nothing of `p` comes back. -/
theorem calculus_inverse_fails :
    (StrictDesc ([⟨0, 0⟩] : List (Term Coef)) ∧
      (∀ t ∈ ([⟨0, 0⟩] : List (Term Coef)), t.coef.isNum = true) ∧
      integral ([⟨0, 0⟩] : List (Term Coef)) = Except.ok [⟨Coef.nan, 1⟩, ⟨Coef.nan, 0⟩] ∧
      shr (stripConstant ([⟨Coef.nan, 1⟩, ⟨Coef.nan, 0⟩] : List (Term Coef))) 1
        = Except.ok [⟨Coef.nan, 0⟩] ∧
      coeff ([⟨Coef.nan, 0⟩] : List (Term Coef)) 0 ≠ coeff ([⟨0, 0⟩] : List (Term Coef)) 0) ∧
    (StrictDesc ([⟨1, 4294967295⟩] : List (Term Coef)) ∧
      (∀ t ∈ ([⟨1, 4294967295⟩] : List (Term Coef)), t.coef.isNum = true) ∧
      (⟨1, 4294967295⟩ : Term Coef).shl 1 = ⟨Coef.pinf, 0⟩ ∧
      integral ([⟨1, 4294967295⟩] : List (Term Coef)) = Except.ok [⟨Coef.nan, 0⟩] ∧
      shr (stripConstant ([⟨Coef.nan, 0⟩] : List (Term Coef))) 1 = Except.ok [] ∧
      coeff ([] : List (Term Coef)) 4294967295
        ≠ coeff ([⟨1, 4294967295⟩] : List (Term Coef)) 4294967295) := by
  refine ⟨⟨by decide, by decide!, by decide!, by decide!, by decide!⟩,
    ⟨by decide, by decide!, by decide!, by decide!, by decide!, by decide!⟩⟩

/-- C10, amended. Calculus inverse: for a normalized polynomial `p` with numeric
coefficients and every exponent below 4294967295, `integral p` returns; stripping its
constant-of-integration term and shifting down by 1 returns a polynomial that carries the
coefficient of `p` at every exponent, except that when `p` holds the term `0*x^0` the
coefficient at exponent 0 is NaN. -/
theorem calculus_inverse (p : List (Term Coef)) (hs : StrictDesc p)
    (hnum : ∀ t ∈ p, t.coef.isNum = true) (hexp : ∀ t ∈ p, t.exp < 4294967295) :
    ∃ i d, integral p = Except.ok i ∧ shr (stripConstant i) 1 = Except.ok d ∧
      ∀ e, coeff d e = if e = 0 ∧ (⟨0, 0⟩ : Term Coef) ∈ p then Coef.nan else coeff p e := by
  obtain ⟨hm, hi⟩ := integral_eq p hs hexp
  refine ⟨_, p.map (fun t => (t.shl 1).shr 1), hi, ?_, coeff_shr_shl p hs hnum hexp⟩
  rw [stripConstant_integral p hexp]
  have hof : ofTerms (p.map (fun t => t.shl 1)) = p.map (fun t => t.shl 1) :=
    combine_eq_self hm
  simp only [shr, hof, le_refl, if_true, List.take_length, List.drop_length, List.append_nil,
    List.map_map]
  rfl

/-- The amended inverse of C10 at `p = 3x^2 + 2x + 1`. -/
theorem calculus_inverse_witness :
    (StrictDesc ([⟨3, 2⟩, ⟨2, 1⟩, ⟨1, 0⟩] : List (Term Coef)) ∧
      (∀ t ∈ ([⟨3, 2⟩, ⟨2, 1⟩, ⟨1, 0⟩] : List (Term Coef)), t.coef.isNum = true) ∧
      ∀ t ∈ ([⟨3, 2⟩, ⟨2, 1⟩, ⟨1, 0⟩] : List (Term Coef)), t.exp < 4294967295) ∧
    ∃ i d, integral ([⟨3, 2⟩, ⟨2, 1⟩, ⟨1, 0⟩] : List (Term Coef)) = Except.ok i ∧
      shr (stripConstant i) 1 = Except.ok d ∧
      ∀ e, coeff d e = if e = 0 ∧ (⟨0, 0⟩ : Term Coef) ∈
          ([⟨3, 2⟩, ⟨2, 1⟩, ⟨1, 0⟩] : List (Term Coef)) then Coef.nan
        else coeff ([⟨3, 2⟩, ⟨2, 1⟩, ⟨1, 0⟩] : List (Term Coef)) e :=
  ⟨⟨by decide, by decide!, by decide⟩,
    calculus_inverse _ (by decide) (by decide!) (by decide)⟩

theorem atPoint_foldl {R : Type} [CommRing R] (ι : ℚ →+* R) (x : ℚ) (ts : List (Term ℚ))
    (r : ℚ) :
    ι (ts.foldl (fun result t => result + t.atPoint x) r) = ι r + sem ι (ι x) ts := by
  induction ts generalizing r with
  | nil => simp
  | cons t ts ih =>
    rw [List.foldl_cons, ih, sem_cons]
    simp only [Term.atPoint, map_add, map_mul, map_pow]
    ring

theorem atPoint_eq_sem (ts : List (Term ℚ)) (x : ℚ) :
    atPoint ts x = sem (RingHom.id ℚ) x ts := by
  have h := atPoint_foldl (RingHom.id ℚ) x ts 0
  simpa [atPoint] using h

/-- C12. Evaluation respects normalization: the polynomial constructed from a list of
(coefficient, exponent) pairs evaluates at `x` to the sum over the list of
`coefficient * x ^ exponent`, with `x ^ 0 = 1` at `x = 0` too; the polynomial built from
`3x^2`, `2x`, `1` evaluates to 17 at 2. -/
theorem atPoint_ofTerms :
    (∀ (ts : List (Term ℚ)) (x : ℚ),
      atPoint (ofTerms ts) x = (ts.map (fun t => t.coef * x ^ t.exp)).sum) ∧
    (∀ c : ℚ, atPoint (ofTerms [⟨c, 0⟩]) 0 = c) ∧
    atPoint (ofTerms ([⟨3, 2⟩, ⟨2, 1⟩, ⟨1, 0⟩] : List (Term ℚ))) 2 = 17 := by
  have key : ∀ (ts : List (Term ℚ)) (x : ℚ),
      atPoint (ofTerms ts) x = (ts.map (fun t => t.coef * x ^ t.exp)).sum := by
    intro ts x
    rw [atPoint_eq_sem, sem_ofTerms]
    rfl
  refine ⟨key, fun c => ?_, by decide!⟩
  rw [key]
  simp

theorem shrLoop_eq (n : Nat) (c : ℚ) (e : Nat) :
    Term.shrLoop n c e
      = if n ≤ e then ⟨c * ((e.descFactorial n : ℕ) : ℚ), e - n⟩ else ⟨0, 0⟩ := by
  induction n generalizing c e with
  | zero => simp [Term.shrLoop]
  | succ n ih =>
    cases e with
    | zero => simp [Term.shrLoop]
    | succ e =>
      rw [Term.shrLoop, if_neg (Nat.succ_ne_zero e), ih, Nat.add_sub_cancel]
      by_cases h : n ≤ e
      · rw [if_pos h, if_pos (Nat.succ_le_succ h), Nat.succ_descFactorial_succ]
        simp only [Nat.succ_sub_succ, Nat.cast_mul, Nat.succ_eq_add_one]
        congr 1
        ring
      · rw [if_neg h, if_neg (fun h' => h (Nat.le_of_succ_le_succ h'))]

/-- C16. Monomial shiftDown is the iterated power rule with saturation at constants:
`(c, e) >> n` is the term with coefficient `c * e * (e - 1) * ... * (e - n + 1)` and
exponent `e - n` when `n ≤ e`, and the term with coefficient 0 and exponent 0 when
`n > e`. -/
theorem term_shr_power_rule (c : ℚ) (e n : Nat) :
    (⟨c, e⟩ : Term ℚ).shr n
      = if n ≤ e then ⟨c * ∏ i ∈ Finset.range n, ((e - i : ℕ) : ℚ), e - n⟩ else ⟨0, 0⟩ := by
  rw [Term.shr, shrLoop_eq, Nat.descFactorial_eq_prod_range, Nat.cast_prod]

theorem dense_mem {M : Nat} {r : List (Term ℚ)} (h : Dense M r) (e : Nat) (he : e ≤ M) :
    ∃ t ∈ r, t.exp = e := by
  obtain ⟨t, ht, hte⟩ := dense_getElem? h (M - e) (Nat.sub_le _ _)
  refine ⟨t, List.getElem?_mem ht, ?_⟩
  omega

/-- C14. Densification is sized by the exponent range: for a non-empty term list with
strictly decreasing exponents and largest exponent `M`, `fill` returns; the result has
exactly `M + 1` terms, with exponents `M, M - 1, ..., 0` in that order; every term present
before is a term of the result, and every term of the result whose exponent was missing
has coefficient 0. -/
theorem fill_dense (ts : List (Term ℚ)) (hne : ts ≠ []) (hs : StrictDesc ts) :
    ∃ r, fill ts = Except.ok r ∧ r.length = maxExp ts + 1 ∧
      r.map Term.exp = (List.range (maxExp ts + 1)).reverse ∧
      (∀ t ∈ ts, t ∈ r) ∧ (∀ t ∈ r, t.exp ∉ ts.map Term.exp → t.coef = 0) := by
  obtain ⟨k, r, hr, hd, _⟩ := fill_spec ts hne
  have hsr := dense_strictDesc hd
  have hco : ∀ e, coeff r e = coeff ts e := by
    intro e
    rw [coeff_eq_sem, coeff_eq_sem, sem_fill Polynomial.C Polynomial.X ts r hr]
  refine ⟨r, hr, dense_length hd, hd, ?_, ?_⟩
  · intro t ht
    obtain ⟨t', ht', hte⟩ := dense_mem hd t.exp (le_maxExp ts t ht)
    have hc : t'.coef = t.coef := by
      rw [← coeff_of_mem hsr t' ht', hte, hco, coeff_of_mem hs t ht]
    have : t' = t := by
      cases t
      cases t'
      simp only at hte hc
      rw [hte, hc]
    rw [← this]
    exact ht'
  · intro t ht hnot
    rw [← coeff_of_mem hsr t ht, hco]
    exact coeff_of_not_mem ts t.exp hnot

/-- The densification of C14 at `x^3 + 5x`. -/
theorem fill_dense_witness :
    (([⟨1, 3⟩, ⟨5, 1⟩] : List (Term ℚ)) ≠ [] ∧
      StrictDesc ([⟨1, 3⟩, ⟨5, 1⟩] : List (Term ℚ))) ∧
    ∃ r, fill ([⟨1, 3⟩, ⟨5, 1⟩] : List (Term ℚ)) = Except.ok r ∧
      r.length = maxExp ([⟨1, 3⟩, ⟨5, 1⟩] : List (Term ℚ)) + 1 ∧
      r.map Term.exp = (List.range (maxExp ([⟨1, 3⟩, ⟨5, 1⟩] : List (Term ℚ)) + 1)).reverse ∧
      (∀ t ∈ ([⟨1, 3⟩, ⟨5, 1⟩] : List (Term ℚ)), t ∈ r) ∧
      (∀ t ∈ r, t.exp ∉ ([⟨1, 3⟩, ⟨5, 1⟩] : List (Term ℚ)).map Term.exp → t.coef = 0) :=
  ⟨⟨by simp, by decide⟩, fill_dense _ (by simp) (by decide)⟩

/-- C17: the code at the failing input. For the all-zero list `0*x^1`, `zero_remove`
returns `0*x^1`, not `0*x^0`: the loop stops in front of the last index and never looks at
the last term. For the same reason the zero constant term of `x + 0` is kept. -/
theorem zero_remove_not_minimal :
    zero_remove ([⟨0, 1⟩] : List (Term ℚ)) = Except.ok [⟨0, 1⟩] ∧
      minimalForm ([⟨0, 1⟩] : List (Term ℚ)) = [⟨0, 0⟩] ∧
      zero_remove ([⟨1, 1⟩, ⟨0, 0⟩] : List (Term ℚ)) = Except.ok [⟨1, 1⟩, ⟨0, 0⟩] ∧
      minimalForm ([⟨1, 1⟩, ⟨0, 0⟩] : List (Term ℚ)) = [⟨1, 1⟩] ∧
      ¬ ∀ ts : List (Term ℚ), ts ≠ [] → zero_remove ts = Except.ok (minimalForm ts) := by
  refine ⟨by decide!, by decide!, by decide!, by decide!, fun h => ?_⟩
  have h1 := h [⟨0, 1⟩] (by simp)
  revert h1
  decide!

theorem Coef.num_eq_zero (q : ℚ) : (Coef.num q = 0) ↔ q = 0 := by
  constructor
  · intro h
    exact Coef.num.inj h
  · intro h
    rw [h]
    rfl

/-- A negative coefficient is written as the sign alone: the text is "-" followed by the
variable part, whatever the numeral rendering `fmt` is. -/
theorem print_negative (fmt : ℚ → String) (c : ℚ) (e : Nat) (hc : c < 0) :
    Term.print fmt ⟨Coef.num c, e⟩ false
      = "-" ++ (if e = 1 then "x" else if e ≠ 0 then "x^" ++ toString e else "") := by
  have hc0 : c ≠ 0 := ne_of_lt hc
  simp only [Term.print, if_pos hc, Coef.num_eq_zero, ne_eq, hc0, not_false_eq_true, true_and,
    Bool.false_eq_true, if_false, String.append_empty]

/-- C13: the code at the failing inputs. The term `-3x^2` is written as "-x^2" and the
constant `-5` as "-": the numeral of a negative coefficient is never written. -/
theorem print_negative_drops_numeral (fmt : ℚ → String) :
    Term.print fmt ⟨Coef.num (-3), 2⟩ false = "-x^2" ∧
      Term.print fmt ⟨Coef.num (-5), 0⟩ false = "-" ∧
      Term.print fmt ⟨Coef.num (-3), 2⟩ false ≠ "-3x^2" := by
  have h1 : Term.print fmt ⟨Coef.num (-3), 2⟩ false = "-x^2" := by
    rw [print_negative fmt (-3) 2 (by norm_num)]
    decide
  have h2 : Term.print fmt ⟨Coef.num (-5), 0⟩ false = "-" := by
    rw [print_negative fmt (-5) 0 (by norm_num)]
    decide
  refine ⟨h1, h2, ?_⟩
  rw [h1]
  decide

/-- C15: the code at the failing input. For the normalized `x + 1`, the shift down by 1
returns the terms `1*x^0, 0*x^0`: the exponent 0 occurs twice. -/
theorem shr_repeats_exponent :
    StrictDesc ([⟨1, 1⟩, ⟨1, 0⟩] : List (Term ℚ)) ∧
      shr ([⟨1, 1⟩, ⟨1, 0⟩] : List (Term ℚ)) 1 = Except.ok [⟨1, 0⟩, ⟨0, 0⟩] ∧
      ¬ StrictDesc ([⟨1, 0⟩, ⟨0, 0⟩] : List (Term ℚ)) ∧
      ¬ (([⟨1, 0⟩, ⟨0, 0⟩] : List (Term ℚ)).map Term.exp).Nodup := by
  refine ⟨by decide, by decide!, by decide, by decide⟩

/-- C18: the code at the failing input. For `a = 0*x^1` and `b = x^2`, both normalized,
the first pass of the loop leaves `copy = x^2`, `c_other = 0*x^1`; the second pass divides
by the leading coefficient 0 of `c_other`; no budget makes `gcd a b` return. -/
theorem gcd_zero_dividend_no_result :
    StrictDesc ([⟨0, 1⟩] : List (Term ℚ)) ∧ StrictDesc ([⟨1, 2⟩] : List (Term ℚ)) ∧
      mod (ofTerms ([⟨0, 1⟩] : List (Term ℚ))) [⟨1, 2⟩] = Except.ok [⟨0, 1⟩] ∧
      zero_remove ([⟨0, 1⟩] : List (Term ℚ)) = Except.ok [⟨0, 1⟩] ∧
      mod ([⟨1, 2⟩] : List (Term ℚ)) [⟨0, 1⟩] = Except.error Fault.divByZero ∧
      ∀ fuel g, gcd fuel ([⟨0, 1⟩] : List (Term ℚ)) [⟨1, 2⟩] ≠ Except.ok g := by
  have h1 : mod (ofTerms ([⟨0, 1⟩] : List (Term ℚ))) [⟨1, 2⟩] = Except.ok [⟨0, 1⟩] := by
    decide!
  have h2 : zero_remove ([⟨0, 1⟩] : List (Term ℚ)) = Except.ok [⟨0, 1⟩] := by decide!
  have h3 : zero_remove ([⟨1, 2⟩] : List (Term ℚ)) = Except.ok [⟨1, 2⟩] := by decide!
  have h4 : mod ([⟨1, 2⟩] : List (Term ℚ)) [⟨0, 1⟩] = Except.error Fault.divByZero := by
    decide!
  have hzero : gcd 0 ([⟨0, 1⟩] : List (Term ℚ)) [⟨1, 2⟩]
      = Except.error Fault.outOfFuel := by decide!
  have hone : gcd 1 ([⟨0, 1⟩] : List (Term ℚ)) [⟨1, 2⟩]
      = Except.error Fault.outOfFuel := by decide!
  have hbig : ∀ f, gcd (f + 2) ([⟨0, 1⟩] : List (Term ℚ)) [⟨1, 2⟩]
      = Except.error Fault.divByZero := by
    intro f
    simp [gcd, gcdLoop, nth, bind, Except.bind, h1, h2, h3, h4]
  refine ⟨by decide, by decide, h1, h2, h4, ?_⟩
  intro fuel g hg
  match fuel, hg with
  | 0, hg =>
    rw [hzero] at hg
    exact absurd hg (by simp)
  | 1, hg =>
    rw [hone] at hg
    exact absurd hg (by simp)
  | f + 2, hg =>
    rw [hbig f] at hg
    exact absurd hg (by simp)

/-- C20: the code at the failing input. For `p = x` and `t = 1`, `p - t` is the single
term `-1`: its coefficient at exponent 1 is 0, where `p + (-t)` carries 1. -/
theorem subT_drops_receiver :
    subT ([⟨1, 1⟩] : List (Term ℚ)) ⟨1, 0⟩ = [⟨-1, 0⟩] ∧
      addT ([⟨1, 1⟩] : List (Term ℚ)) (Term.neg ⟨1, 0⟩) = [⟨1, 1⟩, ⟨-1, 0⟩] ∧
      coeff (subT ([⟨1, 1⟩] : List (Term ℚ)) ⟨1, 0⟩) 1 = 0 ∧
      coeff (addT ([⟨1, 1⟩] : List (Term ℚ)) (Term.neg ⟨1, 0⟩)) 1 = 1 := by
  refine ⟨by decide!, by decide!, by decide!, by decide!⟩

/-- C19. Long division never indexes out of range: for a non-empty `a` and a `b` with a
nonzero coefficient, the two operands are normalized and densified to arrays `fa` and
`fb`; the divisor coefficient `fb[0].coef` is nonzero; for every `shift` the loop runs
through (`shift ≤ exp_max`) and every index `i` of `fb`, both `shift` and `i + shift` are
indices of `fa`; and `a / b` and `a % b` return, that is, no subscript leaves its array
and no denominator is 0 anywhere in the run. -/
theorem div_mod_in_bounds (a b : List (Term ℚ)) (ha : a ≠ []) (hb : b ≠ [])
    (hnz : ∃ e, coeff b e ≠ 0) :
    ∃ ta ca tb cb fa fb q r,
      zero_remove (ofTerms a) = Except.ok (ta :: ca) ∧
      zero_remove b = Except.ok (tb :: cb) ∧
      fill (ta :: ca) = Except.ok fa ∧ fill (tb :: cb) = Except.ok fb ∧
      (∃ o, fb[0]? = some o ∧ o.coef ≠ 0) ∧
      (∀ shift i, tb.exp + shift ≤ ta.exp → i < fb.length →
        shift < fa.length ∧ i + shift < fa.length) ∧
      div a b = Except.ok q ∧ mod a b = Except.ok r := by
  obtain ⟨o, rest, hcb, ho⟩ := zeroLoop_head_of_coeff b hnz
  have hca : zeroLoop (combine a) ≠ [] :=
    zeroLoop_ne_nil _ (fun h => ha ((combine_eq_nil a).1 h))
  obtain ⟨ta, resta, hta⟩ := List.exists_cons_of_ne_nil hca
  have hza : zero_remove (ofTerms a) = Except.ok (ta :: resta) := by
    rw [ofTerms, zero_remove_eq _ (fun h => ha ((combine_eq_nil a).1 h)), combine_idem, hta]
  have hzb : zero_remove b = Except.ok (o :: rest) := by rw [zero_remove_eq b hb, hcb]
  have hsa : StrictDesc (ta :: resta) :=
    hta ▸ (combine_strict a).sublist (zeroLoop_sublist _)
  have hsb : StrictDesc (o :: rest) :=
    hcb ▸ (combine_strict b).sublist (zeroLoop_sublist _)
  obtain ⟨fa', hfa, hda⟩ := fill_head ta resta hsa
  obtain ⟨fb', hfb, hdb⟩ := fill_head o rest hsb
  obtain ⟨q, r, hq, hr, _⟩ := div_mod_spec Polynomial.C Polynomial.X a b ha o rest hcb ho
  refine ⟨ta, resta, o, rest, ta :: fa', o :: fb', q, r, hza, hzb, hfa, hfb,
    ⟨o, by simp, ho⟩, ?_, hq, hr⟩
  intro shift i hshift hi
  rw [dense_length hda]
  rw [dense_length hdb] at hi
  omega

/-- The bounds of C19 at `a = x^2`, `b = x - 1`. -/
theorem div_mod_in_bounds_witness :
    (([⟨1, 2⟩] : List (Term ℚ)) ≠ [] ∧ ([⟨1, 1⟩, ⟨-1, 0⟩] : List (Term ℚ)) ≠ [] ∧
      ∃ e, coeff ([⟨1, 1⟩, ⟨-1, 0⟩] : List (Term ℚ)) e ≠ 0) ∧
    ∃ ta ca tb cb fa fb q r,
      zero_remove (ofTerms ([⟨1, 2⟩] : List (Term ℚ))) = Except.ok (ta :: ca) ∧
      zero_remove ([⟨1, 1⟩, ⟨-1, 0⟩] : List (Term ℚ)) = Except.ok (tb :: cb) ∧
      fill (ta :: ca) = Except.ok fa ∧ fill (tb :: cb) = Except.ok fb ∧
      (∃ o, fb[0]? = some o ∧ o.coef ≠ 0) ∧
      (∀ shift i, tb.exp + shift ≤ ta.exp → i < fb.length →
        shift < fa.length ∧ i + shift < fa.length) ∧
      div ([⟨1, 2⟩] : List (Term ℚ)) [⟨1, 1⟩, ⟨-1, 0⟩] = Except.ok q ∧
      mod ([⟨1, 2⟩] : List (Term ℚ)) [⟨1, 1⟩, ⟨-1, 0⟩] = Except.ok r :=
  ⟨⟨by simp, by simp, 1, by decide!⟩,
    div_mod_in_bounds _ _ (by simp) (by simp) ⟨1, by decide!⟩⟩

theorem Coef.num_add (a b : ℚ) : Coef.num a + Coef.num b = Coef.num (a + b) := rfl

theorem Coef.num_mul (a b : ℚ) : Coef.num a * Coef.num b = Coef.num (a * b) := rfl

theorem Coef.num_sub (a b : ℚ) : Coef.num a - Coef.num b = Coef.num (a - b) := by
  show Coef.add (Coef.num a) (Coef.neg (Coef.num b)) = _
  simp only [Coef.neg, Coef.add, sub_eq_add_neg]

theorem Coef.num_pow (a : ℚ) (n : Nat) : Coef.num a ^ n = Coef.num (a ^ n) := by
  cases n with
  | zero => simp only [pow_zero]; rfl
  | succ n => rfl

theorem numeric_eq_ofRat (p : List (Term Coef)) (h : ∀ t ∈ p, t.coef.isNum = true) :
    ∃ ps, p = ofRat ps := by
  induction p with
  | nil => exact ⟨[], rfl⟩
  | cons t p ih =>
    obtain ⟨ps, hps⟩ := ih (fun u hu => h u (List.mem_cons_of_mem _ hu))
    obtain ⟨c, e⟩ := t
    obtain ⟨q, rfl⟩ := Coef.eq_num_of_isNum c (h _ (List.mem_cons_self _ _))
    exact ⟨⟨q, e⟩ :: ps, by rw [hps]; rfl⟩

theorem shl_one_num (c : ℚ) (e : Nat) (h : ¬ (c = 0 ∧ e = 0)) (hexp : e < 4294967295) :
    (⟨Coef.num c, e⟩ : Term Coef).shl 1 = ⟨Coef.num (c / ((e + 1 : ℕ) : ℚ)), e + 1⟩ := by
  have hcast : ((e + 1 : ℕ) : ℚ) ≠ 0 := by positivity
  have h0 : ¬ (Coef.num c = 0 ∧ e = 0) := by
    rw [Coef.num_eq_zero]
    exact h
  have hdiv : Coef.num c / ((e + 1 : ℕ) : Coef) = Coef.num (c / ((e + 1 : ℕ) : ℚ)) := by
    show Coef.div (Coef.num c) (Coef.num ((e + 1 : ℕ) : ℚ)) = _
    simp only [Coef.div, if_neg hcast]
  simp only [Term.shl, Term.shlLoop, succ_mod_uintRange e hexp, h0, if_false, hdiv]

theorem map_shl_ofRat (qs : List (Term ℚ)) (h : ∀ t ∈ qs, ¬ (t.coef = 0 ∧ t.exp = 0))
    (hexp : ∀ t ∈ qs, t.exp < 4294967295) :
    (ofRat qs).map (fun t => t.shl 1) = ofRat (qs.map Term.anti) := by
  induction qs with
  | nil => rfl
  | cons t qs ih =>
    simp only [ofRat, List.map_cons, List.map_map] at ih ⊢
    rw [shl_one_num t.coef t.exp (h t (List.mem_cons_self _ _))
      (hexp t (List.mem_cons_self _ _))]
    congr 1
    exact ih (fun u hu => h u (List.mem_cons_of_mem _ hu))
      (fun u hu => hexp u (List.mem_cons_of_mem _ hu))

theorem atPoint_ofRat_foldl (qs : List (Term ℚ)) (v r : ℚ) :
    (ofRat qs).foldl (fun result t => result + t.atPoint (Coef.num v)) (Coef.num r)
      = Coef.num (qs.foldl (fun result t => result + t.atPoint v) r) := by
  induction qs generalizing r with
  | nil => rfl
  | cons t qs ih =>
    have hstep : Coef.num r + (⟨Coef.num t.coef, t.exp⟩ : Term Coef).atPoint (Coef.num v)
        = Coef.num (r + t.atPoint v) := by
      simp only [Term.atPoint, Coef.num_pow, Coef.num_mul, Coef.num_add]
    rw [ofRat, List.map_cons, List.foldl_cons, List.foldl_cons, hstep]
    exact ih _

theorem atPoint_ofRat (qs : List (Term ℚ)) (v : ℚ) :
    atPoint (ofRat qs) (Coef.num v) = Coef.num (atPoint qs v) :=
  atPoint_ofRat_foldl qs v 0

theorem evaluated_ofRat (qs : List (Term ℚ)) (s e : ℚ) :
    evaluated (ofRat qs) (Coef.num s) (Coef.num e) = Coef.num (evaluated qs s e) := by
  simp only [evaluated, atPoint_ofRat, Coef.num_sub]

theorem evaluated_anti (qs : List (Term ℚ)) (s e : ℚ) :
    evaluated (qs.map Term.anti) s e
      = (qs.map (fun t => t.coef / ((t.exp + 1 : ℕ) : ℚ)
          * (e ^ (t.exp + 1) - s ^ (t.exp + 1)))).sum := by
  simp only [evaluated, atPoint_eq_sem]
  induction qs with
  | nil => simp
  | cons t qs ih =>
    simp only [List.map_cons, sem_cons, List.sum_cons, Term.anti, RingHom.id_apply] at ih ⊢
    rw [← ih]
    ring

theorem ofRat_append (as bs : List (Term ℚ)) : ofRat (as ++ bs) = ofRat as ++ ofRat bs := by
  simp [ofRat]

theorem ofRat_strict (ps : List (Term ℚ)) (h : StrictDesc (ofRat ps)) : StrictDesc ps := by
  unfold ofRat at h
  exact List.pairwise_map.1 h

theorem ofRat_exp_lt (ps : List (Term ℚ)) (n : Nat) (h : ∀ t ∈ ofRat ps, t.exp < n) :
    ∀ t ∈ ps, t.exp < n := by
  intro t ht
  exact h ⟨Coef.num t.coef, t.exp⟩ (List.mem_map.2 ⟨t, ht, rfl⟩)

/-- C11, as stated, fails: for the one-term polynomial `x^4294967295` (non-empty,
normalized, numeric) the exponent increment of the shift wraps to 0 and the coefficient is
divided by 0; the shifted term is `inf*x^0`, and the integral from 0 to 1 is `inf - inf`,
NaN, not a number. -/
theorem integralBetween_wraps :
    StrictDesc ([⟨1, 4294967295⟩] : List (Term Coef)) ∧
      (∀ t ∈ ([⟨1, 4294967295⟩] : List (Term Coef)), t.coef.isNum = true) ∧
      (⟨1, 4294967295⟩ : Term Coef).shl 1 = ⟨Coef.pinf, 0⟩ ∧
      integralBetween ([⟨1, 4294967295⟩] : List (Term Coef)) (Coef.num 0) (Coef.num 1)
        = Except.ok Coef.nan ∧
      ∀ q : ℚ, integralBetween ([⟨1, 4294967295⟩] : List (Term Coef)) (Coef.num 0) (Coef.num 1)
        ≠ Except.ok (Coef.num q) := by
  have h : integralBetween ([⟨1, 4294967295⟩] : List (Term Coef)) (Coef.num 0) (Coef.num 1)
      = Except.ok Coef.nan := by decide!
  refine ⟨by decide, by decide!, by decide!, h, fun q hq => ?_⟩
  rw [h] at hq
  exact Coef.noConfusion (Except.ok.inj hq)

/-- C11, amended. Definite integral: for a non-empty normalized polynomial `p` with
numeric coefficients, every exponent below 4294967295, and numeric bounds,
`integral(start, end)` returns a numeric value (the NaN sentinel does not enter it), equal
to the sum over the terms `(c, e)` of `p` of
`c / (e + 1) * (end ^ (e + 1) - start ^ (e + 1))`. -/
theorem integralBetween_power_rule (p : List (Term Coef)) (s e : ℚ) (hne : p ≠ [])
    (hs : StrictDesc p) (hnum : ∀ t ∈ p, t.coef.isNum = true)
    (hexp : ∀ t ∈ p, t.exp < 4294967295) :
    ∃ ps, p = ofRat ps ∧
      integralBetween p (Coef.num s) (Coef.num e)
        = Except.ok (Coef.num ((ps.map (fun t => t.coef / ((t.exp + 1 : ℕ) : ℚ)
            * (e ^ (t.exp + 1) - s ^ (t.exp + 1)))).sum)) := by
  obtain ⟨ps, rfl⟩ := numeric_eq_ofRat p hnum
  refine ⟨ps, rfl, ?_⟩
  have hexps := ofRat_exp_lt ps _ hexp
  have hps : ps ≠ [] := by
    rintro rfl
    exact hne rfl
  have hsp := ofRat_strict ps hs
  obtain ⟨init, l, rfl⟩ : ∃ init l, ps = init ++ [l] :=
    ⟨ps.dropLast, ps.getLast hps, (List.dropLast_append_getLast hps).symm⟩
  have hexpi : ∀ t ∈ init, t.exp < 4294967295 :=
    fun t ht => hexps t (List.mem_append_left _ ht)
  have hcomb : combine (ofTerms (ofRat (init ++ [l]))) = ofRat (init ++ [l]) := by
    rw [ofTerms, combine_eq_self hs, combine_eq_self hs]
  have hsplit : ofRat (init ++ [l]) = ofRat init ++ [⟨Coef.num l.coef, l.exp⟩] := by
    rw [ofRat_append]
    rfl
  have hlen : (ofRat (init ++ [l])).length - 1 = (ofRat init).length := by
    rw [hsplit]
    simp
  have hnth : nth (ofRat (init ++ [l])) ((ofRat (init ++ [l])).length - 1)
      = Except.ok ⟨Coef.num l.coef, l.exp⟩ := by
    rw [hlen, hsplit]
    simp [nth]
  have hdrop : (ofRat (init ++ [l])).dropLast = ofRat init := by
    rw [hsplit, List.dropLast_concat]
  have hinit : ∀ t ∈ init, ¬ (t.coef = 0 ∧ t.exp = 0) := by
    intro t ht h0
    have hp := List.pairwise_append.1 hsp
    have := hp.2.2 t ht l (List.mem_singleton_self l)
    omega
  have hsum : ((init ++ [l]).map (fun t => t.coef / ((t.exp + 1 : ℕ) : ℚ)
      * (e ^ (t.exp + 1) - s ^ (t.exp + 1)))).sum
      = (init.map (fun t => t.coef / ((t.exp + 1 : ℕ) : ℚ)
          * (e ^ (t.exp + 1) - s ^ (t.exp + 1)))).sum
        + l.coef / ((l.exp + 1 : ℕ) : ℚ) * (e ^ (l.exp + 1) - s ^ (l.exp + 1)) := by
    simp
  simp only [integralBetween, hcomb, hnth, bind, Except.bind, Coef.num_eq_zero]
  by_cases hl : l.coef = 0
  · rw [if_pos hl, hdrop, map_shl_ofRat init hinit hexpi, evaluated_ofRat, evaluated_anti,
      hsum, hl]
    simp
  · rw [if_neg hl, map_shl_ofRat (init ++ [l]) ?_ hexps, evaluated_ofRat, evaluated_anti]
    intro t ht h0
    rcases List.mem_append.1 ht with h | h
    · exact hinit t h h0
    · rw [List.mem_singleton] at h
      rw [h] at h0
      exact hl h0.1

/-- The definite integral of C11, as amended, at `p = 2x + 0`, between 0 and 3. -/
theorem integralBetween_power_rule_witness :
    ((([⟨2, 1⟩, ⟨0, 0⟩] : List (Term Coef)) ≠ []) ∧
      StrictDesc ([⟨2, 1⟩, ⟨0, 0⟩] : List (Term Coef)) ∧
      (∀ t ∈ ([⟨2, 1⟩, ⟨0, 0⟩] : List (Term Coef)), t.coef.isNum = true) ∧
      ∀ t ∈ ([⟨2, 1⟩, ⟨0, 0⟩] : List (Term Coef)), t.exp < 4294967295) ∧
    ∃ ps, ([⟨2, 1⟩, ⟨0, 0⟩] : List (Term Coef)) = ofRat ps ∧
      integralBetween ([⟨2, 1⟩, ⟨0, 0⟩] : List (Term Coef)) (Coef.num 0) (Coef.num 3)
        = Except.ok (Coef.num ((ps.map (fun t => t.coef / ((t.exp + 1 : ℕ) : ℚ)
            * ((3 : ℚ) ^ (t.exp + 1) - (0 : ℚ) ^ (t.exp + 1)))).sum)) :=
  ⟨⟨by simp, by decide, by decide!, by decide⟩,
    integralBetween_power_rule _ 0 3 (by simp) (by decide) (by decide!) (by decide)⟩

end Rx
